import Mathlib

/-!
Verification of `uart_adc.X/newmain.c`.

A shallow embedding of the PIC16F877A firmware `newmain.c` (UART transmit,
ADC read, integer / one-decimal formatting, acquisition loop) and theorems
about it.

Conventions of the embedding.

* Bytes (`char`, 8-bit registers) are natural numbers below 256; `unsigned int`
  is 16 bits wide on the target, so values are natural numbers below 65536 and
  conversions reduce modulo `2 ^ 16` or `2 ^ 8` where the C code converts.
* A C array is a list of cells of fixed length.  A cell is `none` until it is
  first written (a local array declared without initialiser) and `some b`
  afterwards.  Every indexed read and write is checked: an index outside the
  array, or a read of a cell that was never written, makes the operation return
  `none`.  A result `some _` therefore says that the run stayed inside every
  array it touched.
* The transmit line is the list of bytes stored into `TXREG`, oldest first.
  The busy-waits on `TXIF` and `GO_nDONE` are taken to end, and the delays
  (`__delay_ms`) change nothing that is recorded; neither appears as a step.
* The source does not fix the representation of `float`.  Every function that
  computes with `float` takes the rounding function of the format as a
  parameter `rnd : ℚ → ℚ`, applied to the exact result of each floating-point
  operation and to each value converted to the format.  `exactArith` is
  arithmetic without rounding; `binary32` is the IEEE 754 32-bit format with
  round-to-nearest-even.
-/

namespace UartAdc

/-! ## Arrays with checked access -/

/-- A C array of bytes: `none` marks a cell that has not been written yet. -/
abbrev Buf := List (Option Nat)

/-- A local array of `n` bytes declared without an initialiser. -/
def uninit (n : Nat) : Buf := List.replicate n none

/-- The assignment `b[i] = v`; `none` when `i` is outside the array. -/
def store (b : Buf) (i v : Nat) : Option Buf :=
  if i < b.length then some (b.set i (some v)) else none

/-- The read `b[i]`; `none` when `i` is outside the array or the cell was never
written. -/
def load (b : Buf) (i : Nat) : Option Nat :=
  match b.get? i with
  | some (some v) => some v
  | _ => none

/-- The bytes of a string literal followed by its terminating zero byte. -/
def literal (s : String) : Buf :=
  (s.toList.map fun c => some c.toNat) ++ [some 0]

/-- The bytes of a string, as numbers. -/
def bytesOf (s : String) : List Nat := s.toList.map Char.toNat

/-- The text held in a buffer: the bytes before the first zero byte.  `none`
when an unwritten cell or the end of the array comes before any zero byte. -/
def cText : Buf → Option (List Nat)
  | [] => none
  | none :: _ => none
  | some c :: rest => if c = 0 then some [] else (cText rest).map (c :: ·)

/-! ## Integer to string (`intToString`, lines 110-133) -/

/-- The loop `while(num > 0) { temp[i++] = (num % 10) + '0'; num /= 10; }`.
The first argument bounds the number of iterations; `num` iterations always
suffice because `num / 10 < num` while `num > 0`. -/
def intToString.digitLoop : Nat → Nat → Buf → Nat → Option (Buf × Nat)
  | 0, num, temp, i => if num > 0 then none else some (temp, i)
  | fuel + 1, num, temp, i =>
    if num > 0 then
      match store temp i ((num % 10 + 48) % 256) with
      | none => none
      | some temp1 => intToString.digitLoop fuel (num / 10) temp1 (i + 1)
    else some (temp, i)

/-- The loop `for(j = 0; j < i; j++) str[j] = temp[i - j - 1];`.  The first
argument is the number of iterations left, `i - j`. -/
def intToString.reverseLoop : Nat → Buf → Nat → Nat → Buf → Option Buf
  | 0, _, _, _, str => some str
  | n + 1, temp, i, j, str =>
    match load temp (i - j - 1) with
    | none => none
    | some c =>
      match store str j c with
      | none => none
      | some str1 => intToString.reverseLoop n temp i (j + 1) str1

/-- The function `void intToString(unsigned int num, char *str)`: the result is
the array `str` points to after the call. -/
def intToString (num : Nat) (str : Buf) : Option Buf :=
  let temp := uninit 6
  if num = 0 then
    (store str 0 48).bind fun str1 => store str1 1 0
  else
    (intToString.digitLoop num num temp 0).bind fun (temp1, i) =>
    (intToString.reverseLoop i temp1 i 0 str).bind fun str1 =>
    store str1 i 0

/-! ## Reference notions used to state the properties -/

/-- The decimal numeral of `n` as ASCII bytes, most significant digit first;
`"0"` for zero. -/
def decimal (n : Nat) : List Nat :=
  if n = 0 then [48] else ((Nat.digits 10 n).reverse.map fun d => d + 48)

/-- Reading a list of ASCII digits as a base-10 numeral, left to right. -/
def parseDecimal (text : List Nat) : Nat :=
  text.foldl (fun acc c => acc * 10 + (c - 48)) 0

/-- The text of `x` with one fractional digit, both parts truncated: the
numeral of `⌊x⌋`, a point, and the digit `⌊(x - ⌊x⌋) * 10⌋`. -/
def oneDecimal (x : ℚ) : List Nat :=
  decimal ⌊x⌋₊ ++ [46, 48 + ⌊(x - ⌊x⌋₊) * 10⌋₊]

/-- The bit rate of the USART in high-speed asynchronous mode for an
oscillator frequency and a divisor register value, by the documented formula
`oscillatorFreq / (16 * (divisor + 1))`. -/
def baudRate (oscillatorFreq divisor : Nat) : ℚ :=
  (oscillatorFreq : ℚ) / (16 * ((divisor : ℚ) + 1))

/-! ## Floating point -/

/-- Arithmetic without rounding: every operation returns its exact result.  An
idealisation, used to state what the formulas give before any rounding; the
float arithmetic of the program rounds, as `binary32` does. -/
def exactArith : ℚ → ℚ := fun x => x

/-- Bisection for a binary exponent, biased by 126: the greatest `b` in
`[lo, lo + 2 ^ k)` with `2 ^ (b - 126) ≤ n / d`, and `lo` when there is none. -/
def exponentFrom (n d : Nat) : Nat → Nat → Nat
  | 0, lo => lo
  | k + 1, lo =>
    if d * 2 ^ (lo + 2 ^ k - 126) ≤ n * 2 ^ (126 - (lo + 2 ^ k))
    then exponentFrom n d k (lo + 2 ^ k)
    else exponentFrom n d k lo

/-- The binary32 exponent of the positive value `n / d`, biased by 126: the `b`
with `2 ^ (b - 126) ≤ n / d < 2 ^ (b - 125)`, and 0 for the subnormal values
below `2 ^ (-126)`. -/
def binary32.exponent (n d : Nat) : Nat := exponentFrom n d 8 0

/-- The integer nearest to `n / d`, the even one of the two when `n / d` lies
half-way between them. -/
def roundHalfEven (n d : Nat) : Nat :=
  if 2 * (n % d) < d then n / d
  else if d < 2 * (n % d) then n / d + 1
  else if (n / d) % 2 = 0 then n / d else n / d + 1

/-- Rounding to IEEE 754 binary32 (24-bit significand, exponents from -126,
subnormals included), to nearest with ties to even: with `b` the biased exponent
of `|x|`, the result is the multiple of `2 ^ (b - 149)` nearest to `x`, the unit
in the last place being 23 binary places below the exponent `b - 126`.  Overflow
to infinity is not modelled; it needs a magnitude of `2 ^ 128`, and the
firmware's values stay below `2 ^ 16`. -/
def binary32 (x : ℚ) : ℚ :=
  if x.num = 0 then 0
  else
    let b := binary32.exponent x.num.natAbs x.den
    let m := roundHalfEven (x.num.natAbs * 2 ^ (149 - b)) (x.den * 2 ^ (b - 149))
    mkRat (Int.sign x.num * (m * 2 ^ (b - 149) : Nat)) (2 ^ (149 - b))

/-- The conversion `(unsigned int)x` of a floating-point value: the fraction is
discarded (truncation toward zero) and the result is a 16-bit value.  C leaves
the result undefined when the truncated value does not fit; the model reduces
it modulo `2 ^ 16`, so that it is some 16-bit value in every case. -/
def toUInt (x : ℚ) : Nat :=
  (Int.tdiv x.num (x.den : Int) % 65536).toNat

/-! ## One-decimal formatting (`floatToString`, lines 136-154) -/

/-- The loop `while(temp[i] != '\0') { str[i] = temp[i]; i++; }`.  The first
argument bounds the number of iterations; one more than the length of `temp`
always suffices, because a read past the end of `temp` already fails. -/
def floatToString.copyLoop : Nat → Buf → Buf → Nat → Option (Buf × Nat)
  | 0, _, _, _ => none
  | fuel + 1, temp, str, i =>
    match load temp i with
    | none => none
    | some c =>
      if c ≠ 0 then
        match store str i c with
        | none => none
        | some str1 => floatToString.copyLoop fuel temp str1 (i + 1)
      else some (str, i)

/-- The assignment `int_part = (unsigned int)num;`. -/
def floatToString.int_part (num : ℚ) : Nat := toUInt num

/-- The assignment `frac_part = (unsigned int)((num - int_part) * 10);` for a
float format with rounding `rnd`: `int_part` and `10` are converted to the
format, the difference and the product are rounded. -/
def floatToString.frac_part (rnd : ℚ → ℚ) (num : ℚ) : Nat :=
  toUInt (rnd (rnd (num - rnd (floatToString.int_part num : ℚ)) * rnd 10))

/-- The function `void floatToString(float num, char *str)`, for a float format
with rounding `rnd`: the result is the array `str` points to after the call. -/
def floatToString (rnd : ℚ → ℚ) (num : ℚ) (str : Buf) : Option Buf :=
  let int_part := floatToString.int_part num
  let frac_part := floatToString.frac_part rnd num
  (intToString int_part (uninit 6)).bind fun temp =>
  (floatToString.copyLoop (temp.length + 1) temp str 0).bind fun (str1, i) =>
  (store str1 i 46).bind fun str2 =>
  (store str2 (i + 1) ((frac_part + 48) % 256)).bind fun str3 =>
  store str3 (i + 2) 0

/-! ## Serial transport (lines 14-68) -/

/-- The special-function registers the firmware writes. -/
structure Regs where
  SPBRG : Nat
  TXSTA : Nat
  RCSTA : Nat
  TRISA : Nat
  TRISC : Nat
  ADCON0 : Nat
  ADCON1 : Nat
  deriving DecidableEq, Repr

/-- The oscillator frequency `_XTAL_FREQ` in Hz (line 2). -/
def _XTAL_FREQ : Nat := 4000000

/-- The function `void UART_Init(void)`: `TRISC6 = 0` clears bit 6 of `TRISC`
and `TRISC7 = 1` sets bit 7. -/
def UART_Init (r : Regs) : Regs :=
  { r with SPBRG := 0x19, TXSTA := 0x24, RCSTA := 0x90,
           TRISC := (r.TRISC &&& 0xBF) ||| 0x80 }

/-- The function `void UART_TxChar(char data)`: once the busy-wait on `TXIF`
ends, which the hardware is assumed to bring about, `data` is stored into
`TXREG` and so follows the bytes already on the line. -/
def UART_TxChar (data : Nat) (wire : List Nat) : List Nat :=
  wire ++ [data]

/-- The function `void UART_TxString(const char *str)`: the first argument is
the memory from `str` onwards, `*str++` takes its head.  `none` when the read
runs into an unwritten cell or off the end of the array. -/
def UART_TxString : Buf → List Nat → Option (List Nat)
  | [], _ => none
  | none :: _, _ => none
  | some c :: rest, wire =>
    if c ≠ 0 then UART_TxString rest (UART_TxChar c wire) else some wire

/-! ## Analog sampler (lines 70-107) -/

/-- The function `void ADC_Init(void)`. -/
def ADC_Init (r : Regs) : Regs :=
  { r with ADCON1 := 0x80, ADCON0 := 0x81 }

/-- The channel selection of `ADC_Read`: `ADCON0 &= 0xC5; ADCON0 |= (channel << 3);`
on the 8-bit register `ADCON0`. -/
def ADC_Read.selectChannel (adcon0 channel : Nat) : Nat :=
  ((adcon0 &&& 0xC5) % 256 ||| (channel <<< 3)) % 256

/-- The function `unsigned int ADC_Read(unsigned char channel)`.  `adresh` and
`adresl` are the contents of the result registers `ADRESH` and `ADRESL` at the
moment the hardware clears `GO_nDONE`, which ends the busy-wait.  Returns the
value of `(ADRESH << 8) + ADRESL` as an `unsigned int` and the registers, with
`GO_nDONE` (bit 2 of `ADCON0`) set by the program and cleared by the hardware. -/
def ADC_Read (channel : Nat) (r : Regs) (adresh adresl : Nat) : Nat × Regs :=
  let adcon0 := ADC_Read.selectChannel r.ADCON0 channel
  let started := adcon0 ||| 0x04
  let done := started &&& 0xFB
  (((adresh <<< 8) + adresl) % 65536, { r with ADCON0 := done })

/-! ## Acquisition loop (`main`, lines 157-193) -/

/-- What `main` owns: the registers, the bytes sent so far and its two text
buffers. -/
structure State where
  regs : Regs
  wire : List Nat
  adc_str : Buf
  temp_str : Buf

/-- The assignment `temperature = (adc_value * 4.88) / 10.0;` for a float
format with rounding `rnd`: the sample and both constants are converted, the
product, the quotient and the stored value are rounded.  `double` and `float`
are taken to share the one format. -/
def main.temperature (rnd : ℚ → ℚ) (adc_value : Nat) : ℚ :=
  rnd (rnd (rnd (rnd (adc_value : ℚ) * rnd (488 / 100)) / rnd 10))

/-- The statements of `main` before the loop (lines 159-170), from power-up
with registers `r` and nothing sent. -/
def main.start (r : Regs) : Option State :=
  (UART_TxString (literal "UART Test Start\r\n") []).map fun wire =>
    { regs := { ADC_Init (UART_Init r) with TRISA := 0xFF },
      wire := wire, adc_str := uninit 6, temp_str := uninit 10 }

/-- One pass through the body of `while(1)` (lines 174-189); `adresh`, `adresl`
are the result registers the conversion of this pass leaves. -/
def main.iteration (rnd : ℚ → ℚ) (st : State) (adresh adresl : Nat) : Option State :=
  let (adc_value, regs) := ADC_Read 0 st.regs adresh adresl
  let temperature := main.temperature rnd adc_value
  (intToString adc_value st.adc_str).bind fun adc_str =>
  (floatToString rnd temperature st.temp_str).bind fun temp_str =>
  (UART_TxString (literal "ADC = ") st.wire).bind fun w1 =>
  (UART_TxString adc_str w1).bind fun w2 =>
  (UART_TxString (literal "\r\nTemp = ") w2).bind fun w3 =>
  (UART_TxString temp_str w3).bind fun w4 =>
  (UART_TxString (literal " C\r\n\r\n") w4).map fun w5 =>
    { regs := regs, wire := w5, adc_str := adc_str, temp_str := temp_str }

/-- The loop run for one pass per entry of `conversions`, in order. -/
def main.loop (rnd : ℚ → ℚ) : State → List (Nat × Nat) → Option State
  | st, [] => some st
  | st, (adresh, adresl) :: rest =>
    (main.iteration rnd st adresh adresl).bind fun st1 => main.loop rnd st1 rest

/-- The program from power-up through as many passes of the loop as there are
entries in `conversions`. -/
def main.run (rnd : ℚ → ℚ) (r : Regs) (conversions : List (Nat × Nat)) : Option State :=
  (main.start r).bind fun st => main.loop rnd st conversions

/-- The result registers that hold the right-justified sample `s`. -/
def registersOf (s : Nat) : Nat × Nat := (s / 256, s % 256)

/-- The record for sample `s` with temperature text `tempText`:
`ADC = <s>\r\nTemp = <tempText> C\r\n\r\n`. -/
def recordWith (s : Nat) (tempText : List Nat) : List Nat :=
  bytesOf "ADC = " ++ decimal s ++ bytesOf "\r\nTemp = " ++ tempText ++ bytesOf " C\r\n\r\n"

/-- The temperature text for sample `s` as the program forms it in a float
format with rounding `rnd`: the numeral of `int_part`, a point, and the
character `frac_part + '0'`. -/
def main.tempText (rnd : ℚ → ℚ) (s : Nat) : List Nat :=
  decimal (floatToString.int_part (main.temperature rnd s)) ++
    [46, 48 + floatToString.frac_part rnd (main.temperature rnd s)]

/-- A record of the form `ADC = <digits>\r\nTemp = <digits>.<digit> C\r\n\r\n`
whose first numeral is that of sample `s`. -/
def IsRecord (s : Nat) (r : List Nat) : Prop :=
  ∃ ds d, ds ≠ [] ∧ (∀ c ∈ ds, 48 ≤ c ∧ c ≤ 57) ∧ 48 ≤ d ∧ d ≤ 57 ∧
    r = recordWith s (ds ++ [46, d])

/-- The samples in [0, 1023] for which binary32 arithmetic yields a different
fraction digit than exact arithmetic.  For each of them `s * 4.88 / 10` is a
whole number of tenths. -/
def binary32Exceptions : List Nat :=
  [25, 50, 75, 100, 150, 200, 275, 300, 400, 425, 550, 600, 675, 725, 800, 850, 925, 975]

/-! Theorems. -/

/-! ## Checked array access -/

theorem store_at_length (pre : Buf) (c : Option Nat) (rest : Buf) (v : Nat) :
    store (pre ++ c :: rest) pre.length v = some (pre ++ some v :: rest) := by
  simp [store]

theorem load_at_length (pre : Buf) (v : Nat) (rest : Buf) :
    load (pre ++ some v :: rest) pre.length = some v := by
  induction pre with
  | nil => simp [load]
  | cons a pre ih => simpa [load] using ih

/-- The access checks are effective: a number of seven digits overruns the
six-byte scratch array of `intToString`, and a number of six digits fits the
scratch array but overruns an output array of six bytes with its terminator. -/
theorem intToString_overrun :
    intToString 1000000 (uninit 16) = none ∧ intToString 100000 (uninit 6) = none ∧
      (intToString 100000 (uninit 7)).isSome = true := by
  decide

theorem digitLoop_spec (fuel : Nat) : ∀ (num : Nat) (pre rest : Buf),
    num ≤ fuel → (Nat.digits 10 num).length ≤ rest.length →
    intToString.digitLoop fuel num (pre ++ rest) pre.length =
      some (pre ++ (Nat.digits 10 num).map (fun d => some (d + 48))
              ++ rest.drop (Nat.digits 10 num).length,
            pre.length + (Nat.digits 10 num).length) := by
  induction fuel with
  | zero =>
    intro num pre rest h _
    have : num = 0 := by omega
    subst this
    simp [intToString.digitLoop]
  | succ fuel ih =>
    intro num pre rest h hlen
    rcases Nat.eq_zero_or_pos num with h0 | hpos
    · subst h0
      simp [intToString.digitLoop]
    · have hd : Nat.digits 10 num = (num % 10) :: Nat.digits 10 (num / 10) :=
        Nat.digits_def' (by norm_num) hpos
      rw [hd] at hlen ⊢
      cases rest with
      | nil => simp at hlen
      | cons c rest =>
        have hmod : (num % 10 + 48) % 256 = num % 10 + 48 := by omega
        simp only [intToString.digitLoop, hpos, if_true, store_at_length, hmod]
        have hle : num / 10 ≤ fuel := by omega
        have hlen2 : (Nat.digits 10 (num / 10)).length ≤ rest.length := by
          simpa using hlen
        have := ih (num / 10) (pre ++ [some (num % 10 + 48)]) rest hle hlen2
        simp only [List.append_assoc, List.singleton_append, List.length_append,
          List.length_singleton] at this
        rw [this]
        simp [Nat.add_assoc, Nat.add_comm 1]

theorem load_mapped : ∀ (ds : List Nat) (trest : Buf) (k : Nat) (h : k < ds.length),
    load (ds.map some ++ trest) k = some (ds[k])
  | [], _, _, h => by simp at h
  | d :: ds, trest, 0, _ => by simp [load]
  | d :: ds, trest, k + 1, h => by
    have h2 : k < ds.length := by simpa using h
    simpa [load] using load_mapped ds trest k h2

theorem reverseLoop_spec (ds : List Nat) (trest : Buf) (n : Nat) : ∀ (pre suf : Buf),
    n + pre.length = ds.length → n ≤ suf.length →
    intToString.reverseLoop n (ds.map some ++ trest) ds.length pre.length (pre ++ suf) =
      some (pre ++ (ds.take n).reverse.map some ++ suf.drop n) := by
  induction n with
  | zero => intro pre suf _ _; simp [intToString.reverseLoop]
  | succ n ih =>
    intro pre suf hlen hsuf
    have hn : n < ds.length := by omega
    have hidx : ds.length - pre.length - 1 = n := by omega
    cases suf with
    | nil => simp at hsuf
    | cons c suf =>
      simp only [intToString.reverseLoop, hidx, load_mapped ds trest n hn, store_at_length]
      have := ih (pre ++ [some ds[n]]) suf (by simp; omega) (by simpa using hsuf)
      simp only [List.append_assoc, List.singleton_append, List.length_append,
        List.length_singleton] at this
      rw [this]
      have ht : List.take (n + 1) ds = List.take n ds ++ [ds[n]] := by
        rw [List.take_succ, List.getElem?_eq_getElem hn]; rfl
      rw [ht]
      simp only [List.reverse_append, List.reverse_singleton, List.singleton_append,
        List.map_cons, List.cons_append, List.append_assoc, List.drop_succ_cons,
        List.nil_append]

theorem intToString_spec (num : Nat) (str : Buf) (hnum : num < 1000000)
    (hstr : (decimal num).length < str.length) :
    intToString num str =
      some ((decimal num).map some ++ some 0 :: str.drop ((decimal num).length + 1)) := by
  unfold intToString
  by_cases h0 : num = 0
  · subst h0
    match str, hstr with
    | a :: b :: rest, _ => simp [store, decimal]
  · have hdl : (Nat.digits 10 num).length ≤ 6 := by
      have h9 : (Nat.digits 10 999999).length = 6 := by norm_num
      exact h9 ▸ Nat.le_digits_len_le 10 num 999999 (by omega)
    have hdec : decimal num = (Nat.digits 10 num).reverse.map fun d => d + 48 := by
      simp [decimal, h0]
    have h1 := digitLoop_spec num num [] (uninit 6) le_rfl (by simpa [uninit] using hdl)
    simp only [List.nil_append, List.length_nil, Nat.zero_add] at h1
    simp only [h0, if_false, h1, Option.some_bind, Option.bind_eq_bind]
    have hmap : (Nat.digits 10 num).map (fun d => some (d + 48))
        = ((Nat.digits 10 num).map fun d => d + 48).map some := by simp
    rw [hmap]
    have hl : ((Nat.digits 10 num).map fun d => d + 48).length = (Nat.digits 10 num).length := by
      simp
    have hstr2 : (Nat.digits 10 num).length < str.length := by simpa [hdec] using hstr
    have h2 := reverseLoop_spec ((Nat.digits 10 num).map fun d => d + 48)
      (List.drop (Nat.digits 10 num).length (uninit 6)) (Nat.digits 10 num).length [] str
      (by simp) (by omega)
    simp only [hl, List.nil_append, List.length_nil] at h2
    rw [h2]
    simp only [Option.some_bind]
    have hsplit : str.drop (Nat.digits 10 num).length
        = str[(Nat.digits 10 num).length] :: str.drop ((Nat.digits 10 num).length + 1) := by
      simp
    have htake : List.take (Nat.digits 10 num).length ((Nat.digits 10 num).map fun d => d + 48)
        = (Nat.digits 10 num).map fun d => d + 48 := by
      rw [List.take_of_length_le]; simp
    rw [hsplit, htake]
    have hlen3 : (((Nat.digits 10 num).map fun d => d + 48).reverse.map some).length
        = (Nat.digits 10 num).length := by simp
    have h3 := store_at_length (((Nat.digits 10 num).map fun d => d + 48).reverse.map some)
      (str[(Nat.digits 10 num).length]) (str.drop ((Nat.digits 10 num).length + 1)) 0
    rw [hlen3] at h3
    rw [h3, hdec]
    simp [List.map_reverse]

theorem cText_text : ∀ (text : List Nat) (rest : Buf), (∀ c ∈ text, c ≠ 0) →
    cText (text.map some ++ some 0 :: rest) = some text
  | [], _, _ => by simp [cText]
  | c :: text, rest, h => by
    have hc : c ≠ 0 := h c (by simp)
    have ih := cText_text text rest (fun d hd => h d (by simp [hd]))
    simp [cText, hc, ih]

theorem decimal_digit (n c : Nat) (hc : c ∈ decimal n) : 48 ≤ c ∧ c ≤ 57 := by
  unfold decimal at hc
  split at hc
  · simp at hc; omega
  · simp only [List.mem_map, List.mem_reverse] at hc
    obtain ⟨d, hd, rfl⟩ := hc
    have := Nat.digits_lt_base (by norm_num : 1 < 10) hd
    omega

theorem decimal_ne_nil (n : Nat) : decimal n ≠ [] := by
  unfold decimal
  split
  · simp
  · rename_i h
    simpa [Nat.digits_eq_nil_iff_eq_zero] using h

theorem decimal_length_le (n k : Nat) (hk : 0 < k) (hn : n < 10 ^ k) : (decimal n).length ≤ k := by
  unfold decimal
  split
  · simpa using hk
  · rename_i h
    simp only [List.length_map, List.length_reverse]
    by_contra hlt
    push_neg at hlt
    have h1 : 10 ^ k ≤ 10 ^ ((Nat.digits 10 n).length - 1) :=
      Nat.pow_le_pow_right (by norm_num) (by omega)
    have h2 := Nat.base_pow_length_digits_le 10 n (by norm_num) h
    have h3 : 10 ^ (Nat.digits 10 n).length = 10 * 10 ^ ((Nat.digits 10 n).length - 1) := by
      rw [← pow_succ']; congr 1; omega
    omega

theorem parseDecimal_foldl (ds : List Nat) (acc : Nat) :
    (ds.map fun d => d + 48).foldl (fun a c => a * 10 + (c - 48)) acc
      = Nat.ofDigits 10 ds.reverse + acc * 10 ^ ds.length := by
  induction ds generalizing acc with
  | nil => simp
  | cons d ds ih =>
    simp only [List.map_cons, List.foldl_cons, ih, List.reverse_cons, Nat.ofDigits_append,
      List.length_reverse, List.length_cons, Nat.ofDigits_singleton]
    simp only [Nat.add_sub_cancel]
    ring

theorem parseDecimal_decimal (n : Nat) : parseDecimal (decimal n) = n := by
  unfold decimal parseDecimal
  split
  · subst_vars; rfl
  · rw [parseDecimal_foldl]
    simp [Nat.ofDigits_digits]

theorem decimal_head (n : Nat) (h : (decimal n).head? = some 48) : n = 0 := by
  by_contra hn
  have hne : Nat.digits 10 n ≠ [] := by simpa [Nat.digits_eq_nil_iff_eq_zero] using hn
  have hlast := Nat.getLast_digit_ne_zero 10 hn
  simp only [decimal, hn, if_false] at h
  rw [List.head?_map, List.head?_reverse, List.getLast?_eq_getLast _ hne] at h
  simp at h
  exact hlast h

/-- The text left in a buffer of at least six cells by `intToString v`, for a
16-bit `v`, is the decimal numeral of `v`. -/
theorem intToString_text (v : Nat) (hv : v ≤ 65535) (buf : Buf) (hbuf : 6 ≤ buf.length) :
    (intToString v buf).bind cText = some (decimal v) := by
  have hlen : (decimal v).length ≤ 5 := decimal_length_le v 5 (by norm_num) (by norm_num; omega)
  rw [intToString_spec v buf (by omega) (by omega)]
  simp only [Option.some_bind]
  exact cText_text _ _ (fun c hc => by have := decimal_digit v c hc; omega)

/-! ## Text of a buffer and transmission -/

theorem UART_TxString_eq_cText : ∀ (buf : Buf) (wire : List Nat),
    UART_TxString buf wire = (cText buf).map fun text => wire ++ text
  | [], _ => by simp [UART_TxString, cText]
  | none :: _, _ => by simp [UART_TxString, cText]
  | some c :: rest, wire => by
    by_cases hc : c = 0
    · simp [UART_TxString, cText, hc]
    · simp [UART_TxString, cText, hc, UART_TxString_eq_cText rest, UART_TxChar,
        Option.map_map, Function.comp_def]

theorem UART_TxString_text (text : List Nat) (rest : Buf) (wire : List Nat)
    (h : ∀ c ∈ text, c ≠ 0) :
    UART_TxString (text.map some ++ some 0 :: rest) wire = some (wire ++ text) := by
  rw [UART_TxString_eq_cText, cText_text text rest h]; rfl

theorem UART_TxString_literal (s : String) (wire : List Nat) (h : ∀ c ∈ bytesOf s, c ≠ 0) :
    UART_TxString (literal s) wire = some (wire ++ bytesOf s) := by
  have := UART_TxString_text (bytesOf s) [] wire h
  simpa [literal, bytesOf] using this

/-! ## Conversion of a float to `unsigned int` -/

theorem toUInt_eq_floor (x : ℚ) (h0 : 0 ≤ x) (h1 : x < 65536) : toUInt x = ⌊x⌋₊ := by
  have hnum : 0 ≤ x.num := Rat.num_nonneg.mpr h0
  have hfl : ⌊x⌋ = x.num / (x.den : Int) := Rat.floor_def
  have hnn : (0 : Int) ≤ ⌊x⌋ := Int.floor_nonneg.mpr h0
  have hlt : ⌊x⌋ < 65536 := by
    rw [Int.floor_lt]; exact_mod_cast h1
  have hcast : ((⌊x⌋₊ : Nat) : Int) = ⌊x⌋ := Int.natCast_floor_eq_floor h0
  unfold toUInt
  rw [Int.tdiv_eq_ediv hnum (by exact_mod_cast Nat.zero_le _), ← hfl]
  omega

theorem toUInt_lt (x : ℚ) : toUInt x < 65536 := by
  unfold toUInt
  have := Int.emod_lt_of_pos (Int.tdiv x.num (x.den : Int)) (by norm_num : (0 : Int) < 65536)
  have := Int.emod_nonneg (Int.tdiv x.num (x.den : Int)) (by norm_num : (65536 : Int) ≠ 0)
  omega

theorem int_part_exact (x : ℚ) (h0 : 0 ≤ x) (h1 : x < 65536) :
    floatToString.int_part x = ⌊x⌋₊ := toUInt_eq_floor x h0 h1

theorem frac_part_exact (x : ℚ) (h0 : 0 ≤ x) (h1 : x < 65536) :
    floatToString.frac_part exactArith x = ⌊(x - ⌊x⌋₊) * 10⌋₊ ∧
      ⌊(x - ⌊x⌋₊) * 10⌋₊ ≤ 9 := by
  have hfl : ((⌊x⌋₊ : Nat) : ℚ) ≤ x := Nat.floor_le h0
  have hlt : x < ((⌊x⌋₊ : Nat) : ℚ) + 1 := Nat.lt_floor_add_one x
  have hy0 : 0 ≤ (x - ⌊x⌋₊) * 10 := by nlinarith
  have hy1 : (x - ⌊x⌋₊) * 10 < 10 := by nlinarith
  have h9 : ⌊(x - ⌊x⌋₊) * 10⌋₊ ≤ 9 := by
    have : ⌊(x - ⌊x⌋₊) * 10⌋₊ < 10 := by
      rw [Nat.floor_lt hy0]; exact_mod_cast hy1
    omega
  refine ⟨?_, h9⟩
  unfold floatToString.frac_part exactArith
  rw [int_part_exact x h0 h1]
  exact toUInt_eq_floor _ hy0 (by linarith)

theorem oneDecimal_eq (x : ℚ) (h0 : 0 ≤ x) (h1 : x < 65536) :
    oneDecimal x = decimal (floatToString.int_part x) ++
      [46, 48 + floatToString.frac_part exactArith x] := by
  rw [oneDecimal, int_part_exact x h0 h1, (frac_part_exact x h0 h1).1]

/-! ## One-decimal formatting -/

theorem copyLoop_spec : ∀ (text done : List Nat) (trest pre suf : Buf) (fuel : Nat),
    (∀ c ∈ text, c ≠ 0) → pre.length = done.length → text.length ≤ suf.length →
    text.length < fuel →
    floatToString.copyLoop fuel ((done ++ text).map some ++ some 0 :: trest) (pre ++ suf)
        done.length
      = some (pre ++ text.map some ++ suf.drop text.length, done.length + text.length)
  | [], done, trest, pre, suf, fuel + 1, _, _, _, _ => by
    have hl := load_at_length (done.map some) 0 trest
    simp only [List.length_map] at hl
    simp [floatToString.copyLoop, hl]
  | c :: text, done, trest, pre, suf, 0, _, _, _, hf => by simp at hf
  | c :: text, done, trest, pre, [], fuel + 1, _, _, hs, _ => by simp at hs
  | c :: text, done, trest, pre, b :: suf, fuel + 1, hz, hp, hs, hf => by
    have hc : c ≠ 0 := hz c (by simp)
    have hl := load_at_length (done.map some) c (text.map some ++ some 0 :: trest)
    simp only [List.length_map] at hl
    have hst := store_at_length pre b suf c
    rw [hp] at hst
    have ih := copyLoop_spec text (done ++ [c]) trest (pre ++ [some c]) suf fuel
      (fun d hd => hz d (by simp [hd])) (by simp [hp]) (by simpa using hs) (by simpa using hf)
    simp only [List.append_assoc, List.singleton_append, List.length_append,
      List.length_singleton] at ih
    simp only [List.map_append, List.map_cons, List.append_assoc, List.cons_append] at hl ih ⊢
    simp only [floatToString.copyLoop, hl, hc, ne_eq, not_false_eq_true, if_true, hst, ih]
    simp [Nat.add_assoc, Nat.add_comm 1]

/-- What `floatToString` leaves in `str`, for any rounding: the numeral of
`int_part`, a point, the character `frac_part + '0'` and a zero byte, with the
cells behind them as they were. -/
theorem floatToString_spec (rnd : ℚ → ℚ) (num : ℚ) (str : Buf)
    (hstr : (decimal (floatToString.int_part num)).length + 3 ≤ str.length) :
    floatToString rnd num str =
      some ((decimal (floatToString.int_part num) ++
              [46, (floatToString.frac_part rnd num + 48) % 256, 0]).map some ++
            str.drop ((decimal (floatToString.int_part num)).length + 3)) := by
  have hip : floatToString.int_part num < 65536 := toUInt_lt num
  unfold floatToString
  simp only []
  generalize floatToString.int_part num = ip at hip hstr ⊢
  have hlen : (decimal ip).length ≤ 5 := decimal_length_le ip 5 (by norm_num) (by norm_num; omega)
  have hz : ∀ c ∈ decimal ip, c ≠ 0 := fun c hc => by have := decimal_digit ip c hc; omega
  generalize (floatToString.frac_part rnd num + 48) % 256 = d
  rw [intToString_spec ip (uninit 6) (by omega) (by simp [uninit]; omega)]
  simp only [Option.some_bind]
  have hcopy := copyLoop_spec (decimal ip) [] (List.drop ((decimal ip).length + 1) (uninit 6))
    [] str ((decimal ip).length + 1 + (6 - ((decimal ip).length + 1)) + 1)
    hz rfl (by omega) (by omega)
  simp only [List.nil_append, List.length_nil, Nat.zero_add] at hcopy
  have hl6 : (List.map some (decimal ip) ++ some 0 ::
      List.drop ((decimal ip).length + 1) (uninit 6)).length
      = (decimal ip).length + 1 + (6 - ((decimal ip).length + 1)) := by
    simp [uninit]; omega
  rw [hl6, hcopy]
  simp only [Option.some_bind]
  obtain ⟨b0, b1, b2, rest, hrest⟩ : ∃ b0 b1 b2 rest,
      str.drop (decimal ip).length = b0 :: b1 :: b2 :: rest := by
    have hdl : 3 ≤ (str.drop (decimal ip).length).length := by simp; omega
    match hd : str.drop (decimal ip).length, hdl with
    | b0 :: b1 :: b2 :: rest, _ => exact ⟨b0, b1, b2, rest, rfl⟩
  have hdrop3 : str.drop ((decimal ip).length + 3) = rest := by
    rw [← List.drop_drop, hrest]; rfl
  rw [hrest, hdrop3]
  have hm : (List.map some (decimal ip)).length = (decimal ip).length := by simp
  have s1 := store_at_length (List.map some (decimal ip)) b0 (b1 :: b2 :: rest) 46
  have s2 := store_at_length (List.map some (decimal ip) ++ [some 46]) b1 (b2 :: rest) d
  have s3 := store_at_length (List.map some (decimal ip) ++ [some 46, some d]) b2 rest 0
  simp only [hm, List.length_append, List.length_singleton, List.length_cons, List.length_nil,
    List.append_assoc, List.singleton_append, List.cons_append, List.nil_append] at s1 s2 s3
  simp only [s1, Option.some_bind, s2, s3]
  simp

/-! ## Analog sampler and acquisition loop -/

theorem ADC_Read_value (channel : Nat) (r : Regs) (adresh adresl : Nat)
    (hh : adresh ≤ 255) (hl : adresl ≤ 255) :
    (ADC_Read channel r adresh adresl).1 = 256 * adresh + adresl := by
  simp only [ADC_Read, Nat.shiftLeft_eq]
  omega

theorem ADC_Read_registersOf (channel : Nat) (r : Regs) (s : Nat) (hs : s ≤ 1023) :
    (ADC_Read channel r (registersOf s).1 (registersOf s).2).1 = s := by
  rw [ADC_Read_value channel r _ _ (by simp only [registersOf]; omega)
    (by simp only [registersOf]; omega)]
  simp only [registersOf]
  omega

theorem tempText_nonzero (rnd : ℚ → ℚ) (s : Nat)
    (hfp : floatToString.frac_part rnd (main.temperature rnd s) ≤ 9) :
    ∀ c ∈ main.tempText rnd s, c ≠ 0 := by
  intro c hc
  simp only [main.tempText, List.mem_append, List.mem_cons, List.mem_singleton,
    List.not_mem_nil, or_false] at hc
  rcases hc with hc | hc | hc
  · have := decimal_digit _ c hc; omega
  · omega
  · omega

/-- One pass of the loop for sample `s`, in any float format in which the
fraction digit comes out as a digit: the pass completes, sends the record of
`s`, and leaves both buffers at their declared sizes. -/
theorem iteration_spec (rnd : ℚ → ℚ) (st : State) (s : Nat) (hs : s ≤ 1023)
    (ha : st.adc_str.length = 6) (ht : st.temp_str.length = 10)
    (hfp : floatToString.frac_part rnd (main.temperature rnd s) ≤ 9) :
    ∃ st1, main.iteration rnd st (registersOf s).1 (registersOf s).2 = some st1 ∧
      st1.wire = st.wire ++ recordWith s (main.tempText rnd s) ∧
      st1.adc_str.length = 6 ∧ st1.temp_str.length = 10 := by
  have hadc := ADC_Read_registersOf 0 st.regs s hs
  have hlen : (decimal s).length ≤ 5 := decimal_length_le s 5 (by norm_num) (by norm_num; omega)
  have hdz : ∀ c ∈ decimal s, c ≠ 0 := fun c hc => by have := decimal_digit s c hc; omega
  have hip : floatToString.int_part (main.temperature rnd s) < 65536 := toUInt_lt _
  have hlen2 : (decimal (floatToString.int_part (main.temperature rnd s))).length ≤ 5 :=
    decimal_length_le _ 5 (by norm_num) (by norm_num; omega)
  have hmod : (floatToString.frac_part rnd (main.temperature rnd s) + 48) % 256
      = 48 + floatToString.frac_part rnd (main.temperature rnd s) := by omega
  have hI := intToString_spec s st.adc_str (by omega) (by omega)
  have hF := floatToString_spec rnd (main.temperature rnd s) st.temp_str (by omega)
  rw [hmod] at hF
  have hF2 : floatToString rnd (main.temperature rnd s) st.temp_str =
      some ((main.tempText rnd s).map some ++ some 0 ::
        st.temp_str.drop ((decimal (floatToString.int_part (main.temperature rnd s))).length + 3)) := by
    rw [hF]; simp [main.tempText]
  have hT := tempText_nonzero rnd s hfp
  unfold main.iteration
  rcases hread : ADC_Read 0 st.regs (registersOf s).1 (registersOf s).2 with ⟨v, regs⟩
  rw [hread] at hadc
  simp only at hadc
  subst hadc
  simp only [hI, hF2, Option.some_bind]
  rw [UART_TxString_literal "ADC = " st.wire (by decide)]
  simp only [Option.some_bind]
  rw [UART_TxString_text (decimal v) _ _ hdz]
  simp only [Option.some_bind]
  rw [UART_TxString_literal "\r\nTemp = " _ (by decide)]
  simp only [Option.some_bind]
  rw [UART_TxString_text (main.tempText rnd v) _ _ hT]
  simp only [Option.some_bind]
  rw [UART_TxString_literal " C\r\n\r\n" _ (by decide)]
  simp only [Option.map_some']
  have hTl : (main.tempText rnd v).length
      = (decimal (floatToString.int_part (main.temperature rnd v))).length + 2 := by
    simp [main.tempText]
  refine ⟨_, rfl, ?_, ?_, ?_⟩
  · simp [recordWith]
  · simp; omega
  · simp; omega

theorem loop_spec (rnd : ℚ → ℚ) (samples : List Nat) : ∀ (st : State),
    (∀ s ∈ samples, s ≤ 1023) →
    (∀ s ∈ samples, floatToString.frac_part rnd (main.temperature rnd s) ≤ 9) →
    st.adc_str.length = 6 → st.temp_str.length = 10 →
    ∃ st1, main.loop rnd st (samples.map registersOf) = some st1 ∧
      st1.wire = st.wire ++ (samples.map fun s => recordWith s (main.tempText rnd s)).flatten := by
  induction samples with
  | nil => intro st _ _ _ _; exact ⟨st, rfl, by simp⟩
  | cons s samples ih =>
    intro st hs hfp ha ht
    obtain ⟨st1, h1, hw1, ha1, ht1⟩ :=
      iteration_spec rnd st s (hs s (by simp)) ha ht (hfp s (by simp))
    obtain ⟨st2, h2, hw2⟩ := ih st1 (fun x hx => hs x (by simp [hx]))
      (fun x hx => hfp x (by simp [hx])) ha1 ht1
    refine ⟨st2, ?_, ?_⟩
    · have h1b : main.iteration rnd st (s / 256) (s % 256) = some st1 := h1
      simp only [List.map_cons, main.loop, registersOf, h1b, Option.some_bind]
      exact h2
    · rw [hw2, hw1]; simp

theorem start_spec (r : Regs) :
    ∃ st, main.start r = some st ∧ st.wire = bytesOf "UART Test Start\r\n" ∧
      st.adc_str.length = 6 ∧ st.temp_str.length = 10 := by
  unfold main.start
  rw [UART_TxString_literal "UART Test Start\r\n" [] (by decide)]
  exact ⟨_, rfl, rfl, rfl, rfl⟩

/-! ## The two float formats on the samples -/

theorem temperature_exact (s : Nat) :
    main.temperature exactArith s = (s : ℚ) * (488 / 100) / 10 := rfl

theorem temperature_exact_range (s : Nat) (hs : s ≤ 1023) :
    0 ≤ (s : ℚ) * (488 / 100) / 10 ∧ (s : ℚ) * (488 / 100) / 10 ≤ 1023 * (488 / 100) / 10 := by
  have h0 : (0 : ℚ) ≤ (s : ℚ) := Nat.cast_nonneg s
  have h1 : (s : ℚ) ≤ 1023 := by exact_mod_cast hs
  constructor
  · positivity
  · linarith

theorem tempText_exact (s : Nat) (hs : s ≤ 1023) :
    main.tempText exactArith s = oneDecimal ((s : ℚ) * (488 / 100) / 10) ∧
      floatToString.frac_part exactArith (main.temperature exactArith s) ≤ 9 := by
  obtain ⟨h0, h1⟩ := temperature_exact_range s hs
  have h2 : (s : ℚ) * (488 / 100) / 10 < 65536 := by
    have : (1023 : ℚ) * (488 / 100) / 10 < 65536 := by norm_num
    linarith
  have hf := frac_part_exact _ h0 h2
  refine ⟨?_, ?_⟩
  · rw [oneDecimal_eq _ h0 h2]; rfl
  · rw [temperature_exact, hf.1]; exact hf.2

/-- Values of `binary32` on the constants of the temperature computation and on
some test points: 4.88 and 12.2 round to the binary32 numbers with significands
0x9C28F6 and 0xC33333, small integers are kept, and a tie goes to the even
significand. -/
theorem binary32_values :
    binary32 (488 / 100) = 10234102 / 2 ^ 21 ∧
      binary32 (122 / 10) = 12792627 / 2 ^ 20 ∧
      binary32 10 = 10 ∧ binary32 122 = 122 ∧ binary32 (1 / 3) = 11184811 / 2 ^ 25 ∧
      binary32 16777217 = 16777216 ∧ binary32 16777219 = 16777220 ∧
      binary32 (-(122 / 10)) = -(12792627 / 2 ^ 20) := by
  decide!

/-- The integer part and the fraction digit that binary32 arithmetic yields for
each sample in [0, 1023] are those exact arithmetic yields for the same
temperature, taken one tenth lower at the samples of `binary32Exceptions`.
Checked sample by sample. -/
theorem binary32_parts : ∀ s ∈ List.range 1024,
    floatToString.int_part (main.temperature binary32 s)
        = floatToString.int_part
            ((s : ℚ) * (488 / 100) / 10 - if s ∈ binary32Exceptions then 1 / 10 else 0) ∧
    floatToString.frac_part binary32 (main.temperature binary32 s)
        = floatToString.frac_part exactArith
            ((s : ℚ) * (488 / 100) / 10 - if s ∈ binary32Exceptions then 1 / 10 else 0) := by
  decide!

theorem binary32Exceptions_ge : ∀ s ∈ binary32Exceptions, 25 ≤ s := by decide

theorem tempText_binary32 (s : Nat) (hs : s ≤ 1023) :
    main.tempText binary32 s
        = oneDecimal ((s : ℚ) * (488 / 100) / 10 - if s ∈ binary32Exceptions then 1 / 10 else 0) ∧
      floatToString.frac_part binary32 (main.temperature binary32 s) ≤ 9 := by
  obtain ⟨hi, hf⟩ := binary32_parts s (List.mem_range.mpr (by omega))
  obtain ⟨h0, h1⟩ := temperature_exact_range s hs
  have h2 : (1023 : ℚ) * (488 / 100) / 10 < 65536 := by norm_num
  have ha0 : 0 ≤ (s : ℚ) * (488 / 100) / 10 - if s ∈ binary32Exceptions then 1 / 10 else 0 := by
    split
    · rename_i hmem
      have h25 : (25 : ℚ) ≤ (s : ℚ) := by exact_mod_cast binary32Exceptions_ge s hmem
      linarith
    · simpa using h0
  have ha1 : (s : ℚ) * (488 / 100) / 10 - (if s ∈ binary32Exceptions then 1 / 10 else 0) < 65536 := by
    split <;> linarith
  have hfe := frac_part_exact _ ha0 ha1
  refine ⟨?_, ?_⟩
  · rw [oneDecimal_eq _ ha0 ha1, main.tempText, hi, hf]
  · rw [hf, hfe.1]; exact hfe.2

/-! ## Properties of `binary32` -/

theorem exponent_test_iff (n d c : Nat) :
    d * 2 ^ (c - 126) ≤ n * 2 ^ (126 - c) ↔ d * 2 ^ c ≤ n * 2 ^ 126 := by
  rcases le_total c 126 with h | h
  · have h1 : c - 126 = 0 := by omega
    have h2 : (2 : Nat) ^ 126 = 2 ^ (126 - c) * 2 ^ c := by
      rw [← pow_add, Nat.sub_add_cancel h]
    rw [h1, h2, pow_zero, mul_one, ← mul_assoc]
    exact (mul_le_mul_right (by positivity)).symm
  · have h1 : 126 - c = 0 := by omega
    have h2 : (2 : Nat) ^ c = 2 ^ (c - 126) * 2 ^ 126 := by
      rw [← pow_add, Nat.sub_add_cancel h]
    rw [h1, h2, pow_zero, mul_one, ← mul_assoc]
    exact (mul_le_mul_right (by positivity)).symm

theorem exponentFrom_spec (n d : Nat) : ∀ (k lo : Nat),
    lo ≤ exponentFrom n d k lo ∧ exponentFrom n d k lo < lo + 2 ^ k ∧
    (exponentFrom n d k lo = lo ∨ d * 2 ^ exponentFrom n d k lo ≤ n * 2 ^ 126) ∧
    ∀ c, exponentFrom n d k lo < c → c < lo + 2 ^ k → ¬ d * 2 ^ c ≤ n * 2 ^ 126 := by
  intro k
  induction k with
  | zero =>
    intro lo
    refine ⟨le_rfl, by simp [exponentFrom], Or.inl rfl, ?_⟩
    intro c h1 h2
    simp only [exponentFrom, pow_zero] at h1 h2
    omega
  | succ k ih =>
    intro lo
    have hpow : 2 ^ (k + 1) = 2 ^ k + 2 ^ k := by ring
    by_cases h : d * 2 ^ (lo + 2 ^ k - 126) ≤ n * 2 ^ (126 - (lo + 2 ^ k))
    · have he : exponentFrom n d (k + 1) lo = exponentFrom n d k (lo + 2 ^ k) := by
        simp [exponentFrom, h]
      obtain ⟨h1, h2, h3, h4⟩ := ih (lo + 2 ^ k)
      rw [he]
      refine ⟨by omega, by omega, ?_, ?_⟩
      · rcases h3 with h3 | h3
        · right; rw [h3]; exact (exponent_test_iff n d _).mp h
        · exact Or.inr h3
      · intro c hc1 hc2
        exact h4 c hc1 (by omega)
    · have he : exponentFrom n d (k + 1) lo = exponentFrom n d k lo := by
        simp [exponentFrom, h]
      obtain ⟨h1, h2, h3, h4⟩ := ih lo
      rw [he]
      refine ⟨h1, by omega, h3, ?_⟩
      intro c hc1 hc2
      by_cases hcm : c < lo + 2 ^ k
      · exact h4 c hc1 hcm
      · intro hq
        apply h
        rw [exponent_test_iff]
        have hle : (2 : Nat) ^ (lo + 2 ^ k) ≤ 2 ^ c := Nat.pow_le_pow_right (by norm_num) (by omega)
        calc d * 2 ^ (lo + 2 ^ k) ≤ d * 2 ^ c := Nat.mul_le_mul_left d hle
          _ ≤ n * 2 ^ 126 := hq

theorem roundHalfEven_of_dvd (n d : Nat) (hd : 0 < d) (h : d ∣ n) : roundHalfEven n d = n / d := by
  have : n % d = 0 := Nat.mod_eq_zero_of_dvd h
  simp [roundHalfEven, this, hd]

theorem roundHalfEven_ge (n d : Nat) : n / d ≤ roundHalfEven n d := by
  unfold roundHalfEven
  split_ifs <;> omega

theorem roundHalfEven_le (n d : Nat) : roundHalfEven n d ≤ n / d + 1 := by
  unfold roundHalfEven
  split_ifs <;> omega

theorem roundHalfEven_le_of_le (n d k : Nat) (hd : 0 < d) (h : n ≤ k * d) :
    roundHalfEven n d ≤ k := by
  have hq : n / d ≤ k := by
    calc n / d ≤ k * d / d := Nat.div_le_div_right h
      _ = k := Nat.mul_div_cancel k hd
  rcases Nat.eq_zero_or_pos (n % d) with h0 | hpos
  · rw [roundHalfEven_of_dvd n d hd (Nat.dvd_of_mod_eq_zero h0)]; exact hq
  · have hlt : n / d < k := by
      by_contra hge
      have hk : k = n / d := by omega
      have := Nat.div_add_mod n d
      rw [hk] at h
      have h2 : d * (n / d) = n / d * d := Nat.mul_comm _ _
      omega
    have := roundHalfEven_le n d
    omega

theorem roundHalfEven_ge_of_le (n d k : Nat) (hd : 0 < d) (h : k * d ≤ n) :
    k ≤ roundHalfEven n d := by
  have hq : k ≤ n / d := (Nat.le_div_iff_mul_le hd).mpr h
  exact le_trans hq (roundHalfEven_ge n d)

theorem roundHalfEven_twice (n d : Nat) (hd : 0 < d) :
    2 * (roundHalfEven n d * d) ≤ 2 * n + d := by
  have hdm := Nat.div_add_mod n d
  have hml := Nat.mod_lt n hd
  have hc : d * (n / d) = n / d * d := Nat.mul_comm _ _
  unfold roundHalfEven
  split_ifs with h1 h2 h3
  · omega
  · rw [Nat.add_mul]; omega
  · omega
  · rw [Nat.add_mul]; omega

theorem pos_num_den (x : ℚ) (hx : 0 < x) :
    0 < x.num.natAbs ∧ 0 < x.den ∧ ((x.num.natAbs : ℚ) / (x.den : ℚ) = x) := by
  have hnum : 0 < x.num := Rat.num_pos.mpr hx
  have habs : ((x.num.natAbs : Int)) = x.num := Int.natAbs_of_nonneg hnum.le
  refine ⟨by omega, x.den_pos, ?_⟩
  have h1 : ((x.num.natAbs : ℚ)) = (x.num : ℚ) := by
    rw [← Int.cast_natCast, habs]
  rw [h1]
  exact Rat.num_div_den x

theorem nat_le_iff (n d a c : Nat) (hd : 0 < d) :
    d * a ≤ n * c ↔ (a : ℚ) ≤ (n : ℚ) / (d : ℚ) * (c : ℚ) := by
  have hdq : (0 : ℚ) < (d : ℚ) := by exact_mod_cast hd
  rw [div_mul_eq_mul_div, le_div_iff₀ hdq]
  constructor
  · intro h
    have : ((d * a : Nat) : ℚ) ≤ ((n * c : Nat) : ℚ) := by exact_mod_cast h
    push_cast at this
    linarith
  · intro h
    have : ((d * a : Nat) : ℚ) ≤ ((n * c : Nat) : ℚ) := by push_cast; linarith
    exact_mod_cast this

/-- The exponent found for a positive `x`: below 256, with `2 ^ (b - 126) ≤ x`
unless `b = 0`, and `x < 2 ^ (b - 125)` unless `b = 255`. -/
theorem exponent_bounds (x : ℚ) (hx : 0 < x) :
    binary32.exponent x.num.natAbs x.den < 256 ∧
    (binary32.exponent x.num.natAbs x.den = 0 ∨
      (2 : ℚ) ^ binary32.exponent x.num.natAbs x.den ≤ x * 2 ^ 126) ∧
    (binary32.exponent x.num.natAbs x.den < 255 →
      x * 2 ^ 126 < (2 : ℚ) ^ (binary32.exponent x.num.natAbs x.den + 1)) := by
  obtain ⟨hn, hd, hxe⟩ := pos_num_den x hx
  obtain ⟨-, h2, h3, h4⟩ := exponentFrom_spec x.num.natAbs x.den 8 0
  have key : ∀ c : Nat, x.den * 2 ^ c ≤ x.num.natAbs * 2 ^ 126 ↔ (2 : ℚ) ^ c ≤ x * 2 ^ 126 := by
    intro c
    rw [nat_le_iff _ _ _ _ hd, hxe, Nat.cast_pow, Nat.cast_pow, Nat.cast_ofNat]
  refine ⟨by simpa [binary32.exponent] using h2, ?_, ?_⟩
  · rcases h3 with h3 | h3
    · exact Or.inl h3
    · exact Or.inr ((key _).mp h3)
  · intro hb
    have := h4 (binary32.exponent x.num.natAbs x.den + 1) (Nat.lt_succ_self _)
      (by simp only [binary32.exponent] at hb ⊢; omega)
    rw [key] at this
    exact not_le.mp this

theorem binary32_zero : binary32 0 = 0 := by
  simp [binary32]

theorem binary32_pos (x : ℚ) (hx : 0 < x)
    (hb : binary32.exponent x.num.natAbs x.den ≤ 149) :
    binary32 x =
      (roundHalfEven (x.num.natAbs * 2 ^ (149 - binary32.exponent x.num.natAbs x.den)) x.den : ℚ)
        / 2 ^ (149 - binary32.exponent x.num.natAbs x.den) := by
  have hnum : 0 < x.num := Rat.num_pos.mpr hx
  have hne : x.num ≠ 0 := ne_of_gt hnum
  have hz : binary32.exponent x.num.natAbs x.den - 149 = 0 := by omega
  unfold binary32
  simp only [hne, if_false, hz, pow_zero, mul_one, Int.sign_eq_one_of_pos hnum, one_mul]
  rw [Rat.mkRat_eq_div]
  push_cast
  rfl

/-- A positive number `m / 2 ^ j` with `m < 2 ^ 24` and `j ≤ 149` is a binary32
number: rounding leaves it as it is. -/
theorem binary32_dyadic (m j : Nat) (hm : 0 < m) (hm24 : m < 2 ^ 24) (hj : j ≤ 149) :
    binary32 ((m : ℚ) / 2 ^ j) = (m : ℚ) / 2 ^ j := by
  have hmq : (0 : ℚ) < (m : ℚ) := by exact_mod_cast hm
  have hy : (0 : ℚ) < (m : ℚ) / 2 ^ j := by positivity
  obtain ⟨hn, hd, hxe⟩ := pos_num_den _ hy
  obtain ⟨-, hL, -⟩ := exponent_bounds _ hy
  generalize hbdef : binary32.exponent ((m : ℚ) / 2 ^ j).num.natAbs ((m : ℚ) / 2 ^ j).den = b at hL
  have hbj : b + j ≤ 149 := by
    rcases hL with h0 | hL
    · omega
    · have h24 : (m : ℚ) < 2 ^ 24 := by exact_mod_cast hm24
      have h1 : (2 : ℚ) ^ (b + j) < 2 ^ 150 := by
        have e1 : (2 : ℚ) ^ (b + j) = 2 ^ b * 2 ^ j := pow_add 2 b j
        have e2 : (2 : ℚ) ^ 150 = 2 ^ 24 * 2 ^ 126 := by rw [← pow_add]
        have hj0 : (0 : ℚ) < 2 ^ j := by positivity
        have h126 : (0 : ℚ) < 2 ^ 126 := by positivity
        have h3 : (2 : ℚ) ^ b * 2 ^ j ≤ (m : ℚ) * 2 ^ 126 := by
          calc (2 : ℚ) ^ b * 2 ^ j ≤ (m : ℚ) / 2 ^ j * 2 ^ 126 * 2 ^ j :=
                mul_le_mul_of_nonneg_right hL hj0.le
            _ = (m : ℚ) * 2 ^ 126 := by field_simp
        rw [e1, e2]
        calc (2 : ℚ) ^ b * 2 ^ j ≤ (m : ℚ) * 2 ^ 126 := h3
          _ < 2 ^ 24 * 2 ^ 126 := mul_lt_mul_of_pos_right h24 h126
      have := (pow_lt_pow_iff_right₀ (by norm_num : (1 : ℚ) < 2)).mp h1
      omega
  have hval := binary32_pos _ hy (by rw [hbdef]; omega)
  rw [hbdef] at hval
  rw [hval]
  generalize ((m : ℚ) / 2 ^ j).num.natAbs = n at hn hxe
  generalize ((m : ℚ) / 2 ^ j).den = d at hd hxe
  have hdq : (0 : ℚ) < (d : ℚ) := by exact_mod_cast hd
  have hcross : n * 2 ^ j = m * d := by
    have : ((n : ℚ)) * 2 ^ j = (m : ℚ) * (d : ℚ) := by
      have hj0 : (0 : ℚ) < 2 ^ j := by positivity
      field_simp at hxe
      linarith
    exact_mod_cast this
  have hsplit : 2 ^ (149 - b) = 2 ^ j * 2 ^ (149 - b - j) := by
    rw [← pow_add]; congr 1; omega
  have hN : n * 2 ^ (149 - b) = d * (m * 2 ^ (149 - b - j)) := by
    rw [hsplit, ← mul_assoc, hcross]; ring
  rw [hN, roundHalfEven_of_dvd _ _ hd (Dvd.intro _ rfl), Nat.mul_div_cancel_left _ hd]
  have hsplitq : (2 : ℚ) ^ (149 - b) = 2 ^ j * 2 ^ (149 - b - j) := by
    rw [← pow_add]; congr 1; omega
  rw [hsplitq]
  push_cast
  field_simp
  ring

theorem binary32_natCast (k : Nat) (hk : k < 2 ^ 24) : binary32 (k : ℚ) = (k : ℚ) := by
  rcases Nat.eq_zero_or_pos k with h0 | hpos
  · subst h0; simpa using binary32_zero
  · simpa using binary32_dyadic k 0 hpos hk (by norm_num)

theorem binary32_dyadic_or_zero (m j : Nat) (hm24 : m < 2 ^ 24) (hj : j ≤ 149) :
    binary32 ((m : ℚ) / 2 ^ j) = (m : ℚ) / 2 ^ j := by
  rcases Nat.eq_zero_or_pos m with h0 | hpos
  · subst h0; simpa using binary32_zero
  · exact binary32_dyadic m j hpos hm24 hj

/-- A binary32 number in `[0, 512)` has the form `m / 2 ^ j` with `m < 2 ^ 24`
and `j ≤ 149`. -/
theorem binary32_fixed_form (x : ℚ) (hx0 : 0 ≤ x) (hx1 : x < 512) (hfix : binary32 x = x) :
    ∃ m j : Nat, j ≤ 149 ∧ m < 2 ^ 24 ∧ x = (m : ℚ) / 2 ^ j := by
  rcases eq_or_lt_of_le hx0 with h0 | hpos
  · exact ⟨0, 0, by norm_num, by norm_num, by simp [← h0]⟩
  · obtain ⟨-, hL, hU⟩ := exponent_bounds x hpos
    have h126 : (0 : ℚ) < 2 ^ 126 := by positivity
    have hb : binary32.exponent x.num.natAbs x.den < 135 := by
      rcases hL with h0 | hL
      · omega
      · have h1 : (2 : ℚ) ^ binary32.exponent x.num.natAbs x.den < 2 ^ 135 := by
          have e2 : (2 : ℚ) ^ 135 = 2 ^ 9 * 2 ^ 126 := by rw [← pow_add]
          have e9 : (2 : ℚ) ^ 9 = 512 := by norm_num
          rw [e2, e9]
          calc (2 : ℚ) ^ binary32.exponent x.num.natAbs x.den ≤ x * 2 ^ 126 := hL
            _ < 512 * 2 ^ 126 := mul_lt_mul_of_pos_right hx1 h126
        exact (pow_lt_pow_iff_right₀ (by norm_num : (1 : ℚ) < 2)).mp h1
    have hval := binary32_pos x hpos (by omega)
    rw [hfix] at hval
    have hUb := hU (by omega)
    generalize binary32.exponent x.num.natAbs x.den = b at hb hval hUb
    generalize roundHalfEven (x.num.natAbs * 2 ^ (149 - b)) x.den = r at hval
    refine ⟨r, 149 - b, by omega, ?_, hval⟩
    have hJ : (0 : ℚ) < 2 ^ (149 - b) := by positivity
    have hr : (r : ℚ) = x * 2 ^ (149 - b) := by
      rw [hval]; field_simp
    have h150 : (2 : ℚ) ^ (b + 1) * 2 ^ (149 - b) = 2 ^ 24 * 2 ^ 126 := by
      rw [← pow_add, ← pow_add]
      exact congrArg (fun e : Nat => (2 : ℚ) ^ e) (by omega)
    have hlt : (r : ℚ) * 2 ^ 126 < 2 ^ 24 * 2 ^ 126 := by
      rw [hr, ← h150]
      calc x * 2 ^ (149 - b) * 2 ^ 126 = x * 2 ^ 126 * 2 ^ (149 - b) := by ring
        _ < 2 ^ (b + 1) * 2 ^ (149 - b) := mul_lt_mul_of_pos_right hUb hJ
    have hlt2 : (r : ℚ) < 2 ^ 24 := lt_of_mul_lt_mul_right hlt h126.le
    exact_mod_cast hlt2

theorem dyadic_floor (m j : Nat) :
    ⌊(m : ℚ) / 2 ^ j⌋₊ = m / 2 ^ j ∧
      (m : ℚ) / 2 ^ j - ((m / 2 ^ j : Nat) : ℚ) = ((m % 2 ^ j : Nat) : ℚ) / 2 ^ j := by
  have hc : ((2 : ℚ) ^ j) = (((2 ^ j : Nat)) : ℚ) := by push_cast; rfl
  constructor
  · rw [hc]; exact Nat.floor_div_eq_div m (2 ^ j)
  · have hj0 : (0 : ℚ) < 2 ^ j := by positivity
    have hdm : ((m : ℚ)) = ((2 ^ j : Nat) : ℚ) * ((m / 2 ^ j : Nat) : ℚ) + ((m % 2 ^ j : Nat) : ℚ) := by
      exact_mod_cast (Nat.div_add_mod m (2 ^ j)).symm
    rw [← hc] at hdm
    field_simp
    linarith

/-- Rounding ten times a binary32 fraction `m / 2 ^ j < 1`: the result stays
between the two whole numbers around the exact product, and stays below 10. -/
theorem binary32_times_ten (m j : Nat) (hmj : m < 2 ^ j) (hm24 : m < 2 ^ 24) (hj : j ≤ 149) :
    ((⌊(m : ℚ) / 2 ^ j * 10⌋₊ : Nat) : ℚ) ≤ binary32 ((m : ℚ) / 2 ^ j * 10) ∧
      binary32 ((m : ℚ) / 2 ^ j * 10) ≤ ((⌊(m : ℚ) / 2 ^ j * 10⌋₊ : Nat) : ℚ) + 1 ∧
      binary32 ((m : ℚ) / 2 ^ j * 10) < 10 := by
  rcases Nat.eq_zero_or_pos m with h0 | hpos
  · subst h0
    simp [binary32_zero]
  have hB : (0 : ℚ) < 2 ^ j := by positivity
  have hmq : (0 : ℚ) < (m : ℚ) := by exact_mod_cast hpos
  have hm1 : (m : ℚ) + 1 ≤ 2 ^ j := by exact_mod_cast hmj
  have hm24q : (m : ℚ) < 2 ^ 24 := by exact_mod_cast hm24
  have h126 : (0 : ℚ) < 2 ^ 126 := by positivity
  generalize hz : (m : ℚ) / 2 ^ j * 10 = z
  have hzB : z * 2 ^ j = 10 * (m : ℚ) := by rw [← hz]; field_simp; ring
  have hz0 : 0 < z := by rw [← hz]; positivity
  have hz10 : z < 10 := by
    have : z * 2 ^ j < 10 * 2 ^ j := by rw [hzB]; linarith
    exact lt_of_mul_lt_mul_right this hB.le
  obtain ⟨hn, hd, hxe⟩ := pos_num_den z hz0
  obtain ⟨-, hL, -⟩ := exponent_bounds z hz0
  have hb : binary32.exponent z.num.natAbs z.den < 130 ∧
      binary32.exponent z.num.natAbs z.den + j ≤ 153 := by
    rcases hL with h0 | hL
    · omega
    · constructor
      · have h1 : (2 : ℚ) ^ binary32.exponent z.num.natAbs z.den < 2 ^ 130 := by
          have e2 : (2 : ℚ) ^ 130 = 2 ^ 4 * 2 ^ 126 := by rw [← pow_add]
          have e4 : (2 : ℚ) ^ 4 = 16 := by norm_num
          rw [e2, e4]
          calc (2 : ℚ) ^ binary32.exponent z.num.natAbs z.den ≤ z * 2 ^ 126 := hL
            _ < 16 * 2 ^ 126 := mul_lt_mul_of_pos_right (by linarith) h126
        exact (pow_lt_pow_iff_right₀ (by norm_num : (1 : ℚ) < 2)).mp h1
      · have h1 : (2 : ℚ) ^ (binary32.exponent z.num.natAbs z.den + j) < 2 ^ 154 := by
          have e2 : (2 : ℚ) ^ 154 = 2 ^ 4 * 2 ^ 24 * 2 ^ 126 := by rw [← pow_add, ← pow_add]
          have e4 : (2 : ℚ) ^ 4 = 16 := by norm_num
          rw [pow_add, e2, e4]
          calc (2 : ℚ) ^ binary32.exponent z.num.natAbs z.den * 2 ^ j
                ≤ z * 2 ^ 126 * 2 ^ j := mul_le_mul_of_nonneg_right hL hB.le
            _ = 10 * (m : ℚ) * 2 ^ 126 := by rw [← hzB]; ring
            _ < 16 * 2 ^ 24 * 2 ^ 126 := by
                apply mul_lt_mul_of_pos_right _ h126
                nlinarith
        have := (pow_lt_pow_iff_right₀ (by norm_num : (1 : ℚ) < 2)).mp h1
        omega
  have hval := binary32_pos z hz0 (by omega)
  generalize binary32.exponent z.num.natAbs z.den = b at hb hval
  generalize hJ : 149 - b = J at hval
  have hjJ : j ≤ J + 4 := by omega
  have hA : (0 : ℚ) < 2 ^ J := by positivity
  have hBA : (2 : ℚ) ^ j ≤ 16 * 2 ^ J := by
    have e4 : (16 : ℚ) = 2 ^ 4 := by norm_num
    rw [e4, ← pow_add]
    exact pow_le_pow_right₀ (by norm_num) (by omega)
  generalize z.num.natAbs = n at hn hxe hval
  generalize z.den = d at hd hxe hval
  have hdq : (0 : ℚ) < (d : ℚ) := by exact_mod_cast hd
  have hnz : (n : ℚ) = z * (d : ℚ) := by rw [← hxe]; field_simp
  have htw := roundHalfEven_twice (n * 2 ^ J) d hd
  have hge : ∀ k : Nat, (k : ℚ) ≤ z → (k : ℚ) ≤ binary32 z := by
    intro k hk
    have hkd : k * d ≤ n := by
      have : ((k * d : Nat) : ℚ) ≤ (n : ℚ) := by
        push_cast; rw [hnz]; exact mul_le_mul_of_nonneg_right hk hdq.le
      exact_mod_cast this
    have h1 : k * 2 ^ J * d ≤ n * 2 ^ J := by
      calc k * 2 ^ J * d = k * d * 2 ^ J := by ring
        _ ≤ n * 2 ^ J := Nat.mul_le_mul_right _ hkd
    have h2 := roundHalfEven_ge_of_le (n * 2 ^ J) d (k * 2 ^ J) hd h1
    rw [hval, le_div_iff₀ hA]
    exact_mod_cast h2
  have hle : ∀ k : Nat, z ≤ (k : ℚ) → binary32 z ≤ (k : ℚ) := by
    intro k hk
    have hkd : n ≤ k * d := by
      have : (n : ℚ) ≤ ((k * d : Nat) : ℚ) := by
        push_cast; rw [hnz]; exact mul_le_mul_of_nonneg_right hk hdq.le
      exact_mod_cast this
    have h1 : n * 2 ^ J ≤ k * 2 ^ J * d := by
      calc n * 2 ^ J ≤ k * d * 2 ^ J := Nat.mul_le_mul_right _ hkd
        _ = k * 2 ^ J * d := by ring
    have h2 := roundHalfEven_le_of_le (n * 2 ^ J) d (k * 2 ^ J) hd h1
    rw [hval, div_le_iff₀ hA]
    exact_mod_cast h2
  refine ⟨hge _ (Nat.floor_le hz0.le), ?_, ?_⟩
  · have := hle (⌊z⌋₊ + 1) (by push_cast; exact (Nat.lt_floor_add_one z).le)
    simpa using this
  · rw [hval, div_lt_iff₀ hA]
    generalize roundHalfEven (n * 2 ^ J) d = r at htw
    have htq : 2 * ((r : ℚ) * (d : ℚ)) ≤ 2 * ((n : ℚ) * 2 ^ J) + (d : ℚ) := by
      exact_mod_cast htw
    rw [hnz] at htq
    have h2r : 2 * (r : ℚ) ≤ 2 * z * 2 ^ J + 1 := by
      have : (2 * (r : ℚ)) * (d : ℚ) ≤ (2 * z * 2 ^ J + 1) * (d : ℚ) := by linarith
      exact le_of_mul_le_mul_right this hdq
    have h3 : 2 * (r : ℚ) * 2 ^ j ≤ 20 * (m : ℚ) * 2 ^ J + 2 ^ j := by
      have : 2 * (r : ℚ) * 2 ^ j ≤ (2 * z * 2 ^ J + 1) * 2 ^ j :=
        mul_le_mul_of_nonneg_right h2r hB.le
      calc 2 * (r : ℚ) * 2 ^ j ≤ (2 * z * 2 ^ J + 1) * 2 ^ j := this
        _ = 2 * (z * 2 ^ j) * 2 ^ J + 2 ^ j := by ring
        _ = 20 * (m : ℚ) * 2 ^ J + 2 ^ j := by rw [hzB]; ring
    have h4 : 20 * (m : ℚ) * 2 ^ J ≤ 20 * (2 ^ j - 1) * 2 ^ J := by
      apply mul_le_mul_of_nonneg_right _ hA.le
      linarith
    have h5 : (r : ℚ) * 2 ^ j < 10 * 2 ^ J * 2 ^ j := by nlinarith
    exact lt_of_mul_lt_mul_right h5 hB.le

/-- The fraction digit in binary32 arithmetic, for a binary32 number `x` in
`[0, 512)`: the subtraction of the integer part is exact, the product by ten is
rounded, and the digit is the whole part of the rounded product, which is the
whole part of the exact product or one more, and at most 9. -/
theorem frac_part_binary32 (x : ℚ) (hx0 : 0 ≤ x) (hx1 : x < 512) (hfix : binary32 x = x) :
    floatToString.frac_part binary32 x = ⌊binary32 ((x - ⌊x⌋₊) * 10)⌋₊ ∧
      ⌊binary32 ((x - ⌊x⌋₊) * 10)⌋₊ ≤ 9 ∧
      ⌊(x - ⌊x⌋₊) * 10⌋₊ ≤ ⌊binary32 ((x - ⌊x⌋₊) * 10)⌋₊ ∧
      ⌊binary32 ((x - ⌊x⌋₊) * 10)⌋₊ ≤ ⌊(x - ⌊x⌋₊) * 10⌋₊ + 1 := by
  have hip := int_part_exact x hx0 (by linarith)
  obtain ⟨m, j, hj, hm24, rfl⟩ := binary32_fixed_form x hx0 hx1 hfix
  obtain ⟨hfl, hfr⟩ := dyadic_floor m j
  have hdiv : m / 2 ^ j ≤ m := Nat.div_le_self m (2 ^ j)
  have hmod : m % 2 ^ j ≤ m := Nat.mod_le m (2 ^ j)
  have hmodlt : m % 2 ^ j < 2 ^ j := Nat.mod_lt m (by positivity)
  have r1 : binary32 ((m / 2 ^ j : Nat) : ℚ) = ((m / 2 ^ j : Nat) : ℚ) :=
    binary32_natCast _ (by omega)
  have r2 := binary32_dyadic_or_zero (m % 2 ^ j) j (by omega) hj
  have r3 : binary32 (10 : ℚ) = 10 := by simpa using binary32_natCast 10 (by norm_num)
  obtain ⟨t1, t2, t3⟩ := binary32_times_ten (m % 2 ^ j) j hmodlt (by omega) hj
  have hfp : floatToString.frac_part binary32 ((m : ℚ) / 2 ^ j)
      = toUInt (binary32 (((m % 2 ^ j : Nat) : ℚ) / 2 ^ j * 10)) := by
    unfold floatToString.frac_part
    rw [hip, hfl, r1, hfr, r2, r3]
  rw [hfl, hfr, hfp]
  have hnn : (0 : ℚ) ≤ binary32 (((m % 2 ^ j : Nat) : ℚ) / 2 ^ j * 10) :=
    le_trans (Nat.cast_nonneg _) t1
  rw [toUInt_eq_floor _ hnn (by linarith)]
  refine ⟨rfl, ?_, Nat.le_floor t1, Nat.floor_le_of_le (by exact_mod_cast t2)⟩
  have : ⌊binary32 (((m % 2 ^ j : Nat) : ℚ) / 2 ^ j * 10)⌋₊ < 10 := by
    rw [Nat.floor_lt hnn]; exact_mod_cast t3
  omega

/-- C1: for every `v` in [0, 65535] and every output array of at least six
bytes, `intToString(v, buf)` returns with a null-terminated text in `buf`, and
reading that text as a base-10 numeral gives back `v`. -/
theorem intToString_roundtrip (v : Nat) (hv : v ≤ 65535) (buf : Buf) (hbuf : 6 ≤ buf.length) :
    ∃ text, (intToString v buf).bind cText = some text ∧ parseDecimal text = v :=
  ⟨decimal v, intToString_text v hv buf hbuf, parseDecimal_decimal v⟩

/-- The round trip at `v = 40960` with a fresh array of six bytes. -/
theorem intToString_roundtrip_witness :
    ∃ text, (intToString 40960 (uninit 6)).bind cText = some text ∧ parseDecimal text = 40960 :=
  intToString_roundtrip 40960 (by decide) (uninit 6) (by decide)

/-- C2: for every `v` in [0, 65535] the text written by `intToString` is
non-empty, consists only of the characters '0'..'9', starts with '0' only when
`v = 0`, and is exactly "0" when `v = 0`. -/
theorem intToString_digits (v : Nat) (hv : v ≤ 65535) (buf : Buf) (hbuf : 6 ≤ buf.length) :
    ∃ text, (intToString v buf).bind cText = some text ∧ text ≠ [] ∧
      (∀ c ∈ text, 48 ≤ c ∧ c ≤ 57) ∧
      (text.head? = some 48 → v = 0) ∧
      (v = 0 → text = bytesOf "0") := by
  refine ⟨decimal v, intToString_text v hv buf hbuf, decimal_ne_nil v, decimal_digit v,
    decimal_head v, ?_⟩
  rintro rfl
  decide

/-- The text for `v = 0` in a fresh array of six bytes. -/
theorem intToString_digits_witness :
    ∃ text, (intToString 0 (uninit 6)).bind cText = some text ∧ text ≠ [] ∧
      (∀ c ∈ text, 48 ≤ c ∧ c ≤ 57) ∧
      (text.head? = some 48 → 0 = 0) ∧
      ((0 : Nat) = 0 → text = bytesOf "0") :=
  intToString_digits 0 (by decide) (uninit 6) (by decide)

/-- C3, as stated, fails in binary32 arithmetic at the binary32 number
`x = 11744051 / 2 ^ 24` (bit pattern 0x3f333333, the float nearest to 0.7),
which lies in the claim's range.  Line 143 forms `(num - int_part) * 10` in
float: the exact product 6.99999988... rounds to 7, so the program writes
"0.7", whereas the claim's digit `⌊(x - ⌊x⌋) * 10⌋` is 6. -/
theorem floatToString_binary32_rounds_up :
    binary32 (11744051 / 16777216) = 11744051 / 16777216 ∧
      (0 : ℚ) ≤ 11744051 / 16777216 ∧
      (11744051 / 16777216 : ℚ) ≤ 1023 * (488 / 100) / 10 ∧
      (floatToString binary32 (11744051 / 16777216) (uninit 10)).bind cText
        = some (bytesOf "0.7") ∧
      ⌊((11744051 / 16777216 : ℚ) - ⌊(11744051 / 16777216 : ℚ)⌋₊) * 10⌋₊ = 6 := by
  refine ⟨by decide!, by norm_num, by norm_num, by decide!, ?_⟩
  rw [← (frac_part_exact (11744051 / 16777216) (by norm_num) (by norm_num)).1]
  decide!

/-- C3, amended: for every `x` with `0 ≤ x ≤ 1023 * 4.88 / 10` and every output
array of at least six bytes, `floatToString(x, buf)` writes the decimal digits
of `⌊x⌋`, then '.', then exactly one digit, then the terminator, and nothing
behind it.  With arithmetic taken exactly the digit is `⌊(x - ⌊x⌋) * 10⌋`.  In
binary32 arithmetic, for `x` a binary32 number, the product by ten is rounded to
nearest before it is truncated: the digit is `⌊binary32 ((x - ⌊x⌋) * 10)⌋`, at
most 9, equal to `⌊(x - ⌊x⌋) * 10⌋` or one more.  The digit is never obtained by
rounding `x` to one decimal: 23.96 gives "23.9" in both arithmetics. -/
theorem floatToString_truncates (x : ℚ) (h0 : 0 ≤ x) (h1 : x ≤ 1023 * (488 / 100) / 10)
    (buf : Buf) (hbuf : 6 ≤ buf.length) :
    floatToString exactArith x buf =
        some ((decimal ⌊x⌋₊ ++ [46, 48 + ⌊(x - ⌊x⌋₊) * 10⌋₊, 0]).map some ++
              buf.drop ((decimal ⌊x⌋₊).length + 3)) ∧
      ⌊(x - ⌊x⌋₊) * 10⌋₊ ≤ 9 ∧
      (floatToString exactArith (2396 / 100) (uninit 10)).bind cText = some (bytesOf "23.9") ∧
      (binary32 x = x →
        floatToString binary32 x buf =
            some ((decimal ⌊x⌋₊ ++ [46, 48 + ⌊binary32 ((x - ⌊x⌋₊) * 10)⌋₊, 0]).map some ++
                  buf.drop ((decimal ⌊x⌋₊).length + 3)) ∧
          ⌊binary32 ((x - ⌊x⌋₊) * 10)⌋₊ ≤ 9 ∧
          ⌊(x - ⌊x⌋₊) * 10⌋₊ ≤ ⌊binary32 ((x - ⌊x⌋₊) * 10)⌋₊ ∧
          ⌊binary32 ((x - ⌊x⌋₊) * 10)⌋₊ ≤ ⌊(x - ⌊x⌋₊) * 10⌋₊ + 1) ∧
      (floatToString binary32 (binary32 (2396 / 100)) (uninit 10)).bind cText
        = some (bytesOf "23.9") := by
  have h2 : x < 1000 := by
    have : (1023 : ℚ) * (488 / 100) / 10 < 1000 := by norm_num
    linarith
  have h3 : x < 65536 := by linarith
  have h4 : x < 512 := by
    have : (1023 : ℚ) * (488 / 100) / 10 < 512 := by norm_num
    linarith
  have hip := int_part_exact x h0 h3
  have hfp := frac_part_exact x h0 h3
  have hfl : ⌊x⌋₊ < 1000 := by
    rw [Nat.floor_lt h0]; exact_mod_cast h2
  have hlen : (decimal ⌊x⌋₊).length ≤ 3 := decimal_length_le _ 3 (by norm_num) (by norm_num; omega)
  have hspec := floatToString_spec exactArith x buf (by rw [hip]; omega)
  rw [hip, hfp.1] at hspec
  have hmod : (⌊(x - ⌊x⌋₊) * 10⌋₊ + 48) % 256 = 48 + ⌊(x - ⌊x⌋₊) * 10⌋₊ := by
    have := hfp.2; omega
  rw [hmod] at hspec
  refine ⟨hspec, hfp.2, by decide!, ?_, by decide!⟩
  intro hfix
  obtain ⟨b1, b2, b3, b4⟩ := frac_part_binary32 x h0 h4 hfix
  have hspecb := floatToString_spec binary32 x buf (by rw [hip]; omega)
  rw [hip, b1] at hspecb
  have hmodb : (⌊binary32 ((x - ⌊x⌋₊) * 10)⌋₊ + 48) % 256
      = 48 + ⌊binary32 ((x - ⌊x⌋₊) * 10)⌋₊ := by omega
  rw [hmodb] at hspecb
  exact ⟨hspecb, b2, b3, b4⟩

/-- The binary32 number nearest to 0.7, in a fresh array of ten bytes: the
digit written is the whole part of the rounded product. -/
theorem floatToString_truncates_witness :
    floatToString binary32 (11744051 / 16777216) (uninit 10) =
        some ((decimal ⌊(11744051 / 16777216 : ℚ)⌋₊ ++
                [46, 48 + ⌊binary32 (((11744051 / 16777216 : ℚ)
                  - ⌊(11744051 / 16777216 : ℚ)⌋₊) * 10)⌋₊, 0]).map some ++
              (uninit 10).drop ((decimal ⌊(11744051 / 16777216 : ℚ)⌋₊).length + 3)) ∧
      ⌊binary32 (((11744051 / 16777216 : ℚ) - ⌊(11744051 / 16777216 : ℚ)⌋₊) * 10)⌋₊ ≤ 9 ∧
      ⌊((11744051 / 16777216 : ℚ) - ⌊(11744051 / 16777216 : ℚ)⌋₊) * 10⌋₊
        ≤ ⌊binary32 (((11744051 / 16777216 : ℚ) - ⌊(11744051 / 16777216 : ℚ)⌋₊) * 10)⌋₊ ∧
      ⌊binary32 (((11744051 / 16777216 : ℚ) - ⌊(11744051 / 16777216 : ℚ)⌋₊) * 10)⌋₊
        ≤ ⌊((11744051 / 16777216 : ℚ) - ⌊(11744051 / 16777216 : ℚ)⌋₊) * 10⌋₊ + 1 :=
  (floatToString_truncates (11744051 / 16777216) (by norm_num) (by norm_num) (uninit 10)
    (by decide)).2.2.2.1 (by decide!)

/-- C4, as stated, fails in binary32 arithmetic at sample 25, where the claim's
`oneDecimal(25 * 4.88 / 10)` is "12.2".  The program computes `25 * 4.88` as 122
and `122 / 10.0` as the binary32 number nearest to 12.2, which is
12.19999980926513671875; then `int_part` is 12, `(num - int_part) * 10` is
1.99999809..., `frac_part` is 1, and the pass sends "Temp = 12.1". -/
theorem iteration_binary32_sample_25 :
    (main.iteration binary32
        { regs := ADC_Init (UART_Init ⟨0, 0, 0, 0, 0, 0, 0⟩), wire := [],
          adc_str := uninit 6, temp_str := uninit 10 }
        (registersOf 25).1 (registersOf 25).2).map State.wire
      = some (bytesOf "ADC = 25\r\nTemp = 12.1 C\r\n\r\n") ∧
    (main.iteration binary32
        { regs := ADC_Init (UART_Init ⟨0, 0, 0, 0, 0, 0, 0⟩), wire := [],
          adc_str := uninit 6, temp_str := uninit 10 }
        (registersOf 25).1 (registersOf 25).2).map State.wire
      ≠ some (recordWith 25 (oneDecimal ((25 : ℚ) * (488 / 100) / 10))) := by
  have hrun : (main.iteration binary32
        { regs := ADC_Init (UART_Init ⟨0, 0, 0, 0, 0, 0, 0⟩), wire := [],
          adc_str := uninit 6, temp_str := uninit 10 }
        (registersOf 25).1 (registersOf 25).2).map State.wire
      = some (bytesOf "ADC = 25\r\nTemp = 12.1 C\r\n\r\n") := by decide!
  have hclaim : recordWith 25 (oneDecimal ((25 : ℚ) * (488 / 100) / 10))
      = bytesOf "ADC = 25\r\nTemp = 12.2 C\r\n\r\n" := by
    rw [oneDecimal_eq _ (by norm_num) (by norm_num)]
    decide!
  refine ⟨hrun, ?_⟩
  rw [hrun, hclaim]
  decide

/-- C4, amended: for every sample `s` in [0, 1023] and whatever the two buffers
held before, one pass of the loop sends exactly `"ADC = " ++ decimal(s) ++
"\r\nTemp = " ++ oneDecimal(t) ++ " C\r\n\r\n"`, where `oneDecimal` truncates to
one fractional digit and `t = s * 4.88 / 10` when the float arithmetic is exact;
in binary32 arithmetic `t` is the same except at the 18 samples of
`binary32Exceptions`, where it is one tenth lower.  Samples 0 and 205 give
`ADC = 0 / Temp = 0.0` and `ADC = 205 / Temp = 100.0` in both. -/
theorem iteration_transmits (s : Nat) (hs : s ≤ 1023) (st : State)
    (ha : st.adc_str.length = 6) (ht : st.temp_str.length = 10) :
    (main.iteration exactArith st (registersOf s).1 (registersOf s).2).map State.wire
        = some (st.wire ++ recordWith s (oneDecimal ((s : ℚ) * (488 / 100) / 10))) ∧
    (main.iteration binary32 st (registersOf s).1 (registersOf s).2).map State.wire
        = some (st.wire ++ recordWith s (oneDecimal
            ((s : ℚ) * (488 / 100) / 10 - if s ∈ binary32Exceptions then 1 / 10 else 0))) ∧
    (∀ rnd, rnd = exactArith ∨ rnd = binary32 →
      (main.iteration rnd st (registersOf 0).1 (registersOf 0).2).map State.wire
          = some (st.wire ++ bytesOf "ADC = 0\r\nTemp = 0.0 C\r\n\r\n") ∧
      (main.iteration rnd st (registersOf 205).1 (registersOf 205).2).map State.wire
          = some (st.wire ++ bytesOf "ADC = 205\r\nTemp = 100.0 C\r\n\r\n")) := by
  have key : ∀ (rnd : ℚ → ℚ) (n : Nat), n ≤ 1023 →
      floatToString.frac_part rnd (main.temperature rnd n) ≤ 9 →
      (main.iteration rnd st (registersOf n).1 (registersOf n).2).map State.wire
        = some (st.wire ++ recordWith n (main.tempText rnd n)) := by
    intro rnd n hn hfp
    obtain ⟨st1, h1, hw, _, _⟩ := iteration_spec rnd st n hn ha ht hfp
    rw [h1, Option.map_some', hw]
  refine ⟨?_, ?_, ?_⟩
  · rw [key exactArith s hs (tempText_exact s hs).2, (tempText_exact s hs).1]
  · rw [key binary32 s hs (tempText_binary32 s hs).2, (tempText_binary32 s hs).1]
  · intro rnd hrnd
    have e0 : recordWith 0 (main.tempText exactArith 0)
        = bytesOf "ADC = 0\r\nTemp = 0.0 C\r\n\r\n" := by decide!
    have b0 : recordWith 0 (main.tempText binary32 0)
        = bytesOf "ADC = 0\r\nTemp = 0.0 C\r\n\r\n" := by decide!
    have e205 : recordWith 205 (main.tempText exactArith 205)
        = bytesOf "ADC = 205\r\nTemp = 100.0 C\r\n\r\n" := by decide!
    have b205 : recordWith 205 (main.tempText binary32 205)
        = bytesOf "ADC = 205\r\nTemp = 100.0 C\r\n\r\n" := by decide!
    rcases hrnd with rfl | rfl
    · rw [key exactArith 0 (by norm_num) (tempText_exact 0 (by norm_num)).2,
        key exactArith 205 (by norm_num) (tempText_exact 205 (by norm_num)).2, e0, e205]
      exact ⟨rfl, rfl⟩
    · rw [key binary32 0 (by norm_num) (tempText_binary32 0 (by norm_num)).2,
        key binary32 205 (by norm_num) (tempText_binary32 205 (by norm_num)).2, b0, b205]
      exact ⟨rfl, rfl⟩

/-- The pass for the largest sample, 1023, from the state at loop entry. -/
theorem iteration_transmits_witness :
    (main.iteration exactArith ⟨ADC_Init (UART_Init ⟨0, 0, 0, 0, 0, 0, 0⟩), [], uninit 6, uninit 10⟩
        (registersOf 1023).1 (registersOf 1023).2).map State.wire
      = some ([] ++ recordWith 1023 (oneDecimal (((1023 : Nat) : ℚ) * (488 / 100) / 10))) :=
  (iteration_transmits 1023 (by decide)
    ⟨ADC_Init (UART_Init ⟨0, 0, 0, 0, 0, 0, 0⟩), [], uninit 6, uninit 10⟩ rfl rfl).1

/-- C5, as stated, fails when `ADRESH` holds 4: the function returns 1024. -/
theorem ADC_Read_exceeds_1023 :
    (ADC_Read 0 (ADC_Init (UART_Init ⟨0, 0, 0, 0, 0, 0, 0⟩)) 4 0).1 = 1024 ∧
      ¬ (ADC_Read 0 (ADC_Init (UART_Init ⟨0, 0, 0, 0, 0, 0, 0⟩)) 4 0).1 ≤ 1023 := by
  decide

/-- C5, amended: for every channel and every content of the 8-bit
registers `ADRESH` and `ADRESL` when the conversion completes, `ADC_Read`
returns `256 * ADRESH + ADRESL`, a value in [0, 65535]; the value lies in
[0, 1023] exactly when `ADRESH ≤ 3`, that is when the upper six bits of
`ADRESH` are clear. -/
theorem ADC_Read_range (channel : Nat) (r : Regs) (adresh adresl : Nat)
    (hh : adresh ≤ 255) (hl : adresl ≤ 255) :
    (ADC_Read channel r adresh adresl).1 = 256 * adresh + adresl ∧
      (ADC_Read channel r adresh adresl).1 ≤ 65535 ∧
      ((ADC_Read channel r adresh adresl).1 ≤ 1023 ↔ adresh ≤ 3) := by
  have hv := ADC_Read_value channel r adresh adresl hh hl
  rw [hv]
  refine ⟨rfl, by omega, by omega⟩

/-- The largest right-justified result, `ADRESH = 3` and `ADRESL = 255`. -/
theorem ADC_Read_range_witness :
    (ADC_Read 0 (ADC_Init (UART_Init ⟨0, 0, 0, 0, 0, 0, 0⟩)) 3 255).1 = 256 * 3 + 255 ∧
      (ADC_Read 0 (ADC_Init (UART_Init ⟨0, 0, 0, 0, 0, 0, 0⟩)) 3 255).1 ≤ 65535 ∧
      ((ADC_Read 0 (ADC_Init (UART_Init ⟨0, 0, 0, 0, 0, 0, 0⟩)) 3 255).1 ≤ 1023 ↔ 3 ≤ 3) :=
  ADC_Read_range 0 (ADC_Init (UART_Init ⟨0, 0, 0, 0, 0, 0, 0⟩)) 3 255
    (by decide) (by decide)

/-- C6, as stated, fails for bit 1: with all bits of `ADCON0` set beforehand,
selecting channel 0 leaves bit 1 clear, because the mask 0xC5 clears it. -/
theorem selectChannel_clears_bit_1 :
    (ADC_Read.selectChannel 0xFF 0).testBit 1 = false ∧ Nat.testBit 0xFF 1 = true := by
  decide

/-- C6, amended: for every channel in [0, 7] and every prior 8-bit value of
`ADCON0`, the channel-selection step leaves bits 5..3 equal to `channel`, leaves
bits 7, 6, 2 and 0 equal to their prior values, and leaves bit 1 clear; so
every bit outside 5..3 keeps its value whenever bit 1 was clear beforehand. -/
theorem selectChannel_bits (channel : Nat) (hc : channel ≤ 7) (adcon0 : Nat)
    (ha : adcon0 ≤ 255) :
    (ADC_Read.selectChannel adcon0 channel >>> 3) % 8 = channel ∧
      (∀ i < 3, (ADC_Read.selectChannel adcon0 channel).testBit (3 + i) = channel.testBit i) ∧
      (∀ i ∈ [0, 2, 6, 7],
        (ADC_Read.selectChannel adcon0 channel).testBit i = adcon0.testBit i) ∧
      (ADC_Read.selectChannel adcon0 channel).testBit 1 = false ∧
      ADC_Read.selectChannel adcon0 channel ≤ 255 := by
  have key : ∀ c < 8, ∀ a < 256,
      (ADC_Read.selectChannel a c >>> 3) % 8 = c ∧
      (∀ i < 3, (ADC_Read.selectChannel a c).testBit (3 + i) = c.testBit i) ∧
      (∀ i ∈ [0, 2, 6, 7], (ADC_Read.selectChannel a c).testBit i = a.testBit i) ∧
      (ADC_Read.selectChannel a c).testBit 1 = false ∧
      ADC_Read.selectChannel a c ≤ 255 := by decide!
  exact key channel (by omega) adcon0 (by omega)

/-- Selecting channel 5 from the value 0x81 that `ADC_Init` writes. -/
theorem selectChannel_bits_witness :
    (ADC_Read.selectChannel 0x81 5 >>> 3) % 8 = 5 ∧
      (∀ i < 3, (ADC_Read.selectChannel 0x81 5).testBit (3 + i) = Nat.testBit 5 i) ∧
      (∀ i ∈ [0, 2, 6, 7], (ADC_Read.selectChannel 0x81 5).testBit i = Nat.testBit 0x81 i) ∧
      (ADC_Read.selectChannel 0x81 5).testBit 1 = false ∧
      ADC_Read.selectChannel 0x81 5 ≤ 255 :=
  selectChannel_bits 5 (by decide) 0x81 (by decide)

/-- C7: with the line modelled as the list of bytes stored into `TXREG`,
`UART_TxString(s)` returns and has appended exactly the bytes of `s` before its
first zero byte, in order; two calls in a row, for `a` and then `b`, append the
bytes of `a` followed by the bytes of `b`. -/
theorem UART_TxString_appends (a b : List Nat) (ra rb : Buf) (wire : List Nat)
    (hza : ∀ c ∈ a, c ≠ 0) (hzb : ∀ c ∈ b, c ≠ 0) :
    UART_TxString (a.map some ++ some 0 :: ra) wire = some (wire ++ a) ∧
      (UART_TxString (a.map some ++ some 0 :: ra) wire).bind
          (UART_TxString (b.map some ++ some 0 :: rb)) = some (wire ++ a ++ b) := by
  have h1 := UART_TxString_text a ra wire hza
  refine ⟨h1, ?_⟩
  rw [h1, Option.some_bind]
  exact UART_TxString_text b rb (wire ++ a) hzb

/-- Two literals sent in a row on a line that already carries one byte; the second array has cells behind its terminator. -/
theorem UART_TxString_appends_witness :
    UART_TxString ((bytesOf "ADC = ").map some ++ some 0 :: []) [85] = some ([85] ++ bytesOf "ADC = ") ∧
      (UART_TxString ((bytesOf "ADC = ").map some ++ some 0 :: []) [85]).bind
          (UART_TxString ((bytesOf "7").map some ++ some 0 :: [none, some 66])) =
        some ([85] ++ bytesOf "ADC = " ++ bytesOf "7") :=
  UART_TxString_appends (bytesOf "ADC = ") (bytesOf "7") [] [none, some 66] [85]
    (by decide) (by decide)

/-- C8: for every sample `s` in [0, 1023], every content of the 6-byte
`adc_str` and the 10-byte `temp_str`, and every rounding of the float format,
both formatter calls of a loop pass return without an access outside any array
(the scratch arrays of six bytes included, whose accesses are checked like all
others): `intToString(s, adc_str)` writes at most 6 bytes, the last of them the
terminator, and `floatToString(temperature, temp_str)` writes at most 10 bytes,
the last of them the terminator; the cells behind the written bytes are left as
they were. -/
theorem formatters_within_buffers (rnd : ℚ → ℚ) (s : Nat) (hs : s ≤ 1023)
    (adc_str temp_str : Buf) (ha : adc_str.length = 6) (ht : temp_str.length = 10) :
    ∃ wa wt : List Nat,
      intToString s adc_str = some (wa.map some ++ adc_str.drop wa.length) ∧
      wa.length ≤ 6 ∧ wa.getLast? = some 0 ∧
      floatToString rnd (main.temperature rnd s) temp_str
        = some (wt.map some ++ temp_str.drop wt.length) ∧
      wt.length ≤ 10 ∧ wt.getLast? = some 0 := by
  have hlen : (decimal s).length ≤ 4 := decimal_length_le s 4 (by norm_num) (by norm_num; omega)
  have hip : floatToString.int_part (main.temperature rnd s) < 65536 := toUInt_lt _
  have hlen2 : (decimal (floatToString.int_part (main.temperature rnd s))).length ≤ 5 :=
    decimal_length_le _ 5 (by norm_num) (by norm_num; omega)
  have hI := intToString_spec s adc_str (by omega) (by omega)
  have hF := floatToString_spec rnd (main.temperature rnd s) temp_str (by omega)
  refine ⟨decimal s ++ [0],
    decimal (floatToString.int_part (main.temperature rnd s)) ++
      [46, (floatToString.frac_part rnd (main.temperature rnd s) + 48) % 256, 0], ?_, ?_, ?_, ?_, ?_, ?_⟩
  · rw [hI]; simp
  · simp; omega
  · simp
  · rw [hF]; simp
  · simp; omega
  · simp [List.getLast?_append]

/-- Both formatter calls for sample 1023 in binary32 arithmetic, on fresh arrays. -/
theorem formatters_within_buffers_witness :
    ∃ wa wt : List Nat,
      intToString 1023 (uninit 6) = some (wa.map some ++ (uninit 6).drop wa.length) ∧
      wa.length ≤ 6 ∧ wa.getLast? = some 0 ∧
      floatToString binary32 (main.temperature binary32 1023) (uninit 10)
        = some (wt.map some ++ (uninit 10).drop wt.length) ∧
      wt.length ≤ 10 ∧ wt.getLast? = some 0 :=
  formatters_within_buffers binary32 1023 (by decide) (uninit 6) (uninit 10) rfl rfl

theorem isRecord_tempText (rnd : ℚ → ℚ) (s : Nat)
    (hfp : floatToString.frac_part rnd (main.temperature rnd s) ≤ 9) :
    IsRecord s (recordWith s (main.tempText rnd s)) := by
  refine ⟨decimal (floatToString.int_part (main.temperature rnd s)),
    48 + floatToString.frac_part rnd (main.temperature rnd s),
    decimal_ne_nil _, decimal_digit _, by omega, by omega, rfl⟩

/-- C9: for every list of samples in [0, 1023], of any length `N`, the program
runs from power-up through `N` passes of the loop, and the bytes sent until then
are the banner `"UART Test Start\r\n"` followed by one record per sample, in
sample order.  The record of sample `s` is `"ADC = " ++ decimal(s) ++
"\r\nTemp = " ++ oneDecimal(t) ++ " C\r\n\r\n"` with `t = s * 4.88 / 10` in exact
arithmetic, and in binary32 arithmetic with the same `t` except at the samples
of `binary32Exceptions`, where `t` is one tenth lower; every such record has the
form `ADC = <digits>\r\nTemp = <digits>.<digit> C\r\n\r\n`. -/
theorem main_sends_banner_then_records (r : Regs) (samples : List Nat)
    (hs : ∀ s ∈ samples, s ≤ 1023) :
    (∃ st, main.run exactArith r (samples.map registersOf) = some st ∧
      st.wire = bytesOf "UART Test Start\r\n" ++
        (samples.map fun s => recordWith s (oneDecimal ((s : ℚ) * (488 / 100) / 10))).flatten) ∧
    (∃ st, main.run binary32 r (samples.map registersOf) = some st ∧
      st.wire = bytesOf "UART Test Start\r\n" ++
        (samples.map fun s => recordWith s (oneDecimal
          ((s : ℚ) * (488 / 100) / 10 - if s ∈ binary32Exceptions then 1 / 10 else 0))).flatten) ∧
    (∀ s ∈ samples,
      IsRecord s (recordWith s (oneDecimal ((s : ℚ) * (488 / 100) / 10))) ∧
      IsRecord s (recordWith s (oneDecimal
        ((s : ℚ) * (488 / 100) / 10 - if s ∈ binary32Exceptions then 1 / 10 else 0)))) := by
  obtain ⟨st0, h0, hw0, ha0, ht0⟩ := start_spec r
  have hfe : ∀ s ∈ samples, floatToString.frac_part exactArith (main.temperature exactArith s) ≤ 9 :=
    fun s hmem => (tempText_exact s (hs s hmem)).2
  have hfb : ∀ s ∈ samples, floatToString.frac_part binary32 (main.temperature binary32 s) ≤ 9 :=
    fun s hmem => (tempText_binary32 s (hs s hmem)).2
  obtain ⟨ste, he, hwe⟩ := loop_spec exactArith samples st0 hs hfe ha0 ht0
  obtain ⟨stb, hb, hwb⟩ := loop_spec binary32 samples st0 hs hfb ha0 ht0
  have hme : (samples.map fun s => recordWith s (main.tempText exactArith s))
      = samples.map fun s => recordWith s (oneDecimal ((s : ℚ) * (488 / 100) / 10)) :=
    List.map_congr_left fun s hmem => by rw [(tempText_exact s (hs s hmem)).1]
  have hmb : (samples.map fun s => recordWith s (main.tempText binary32 s))
      = samples.map fun s => recordWith s (oneDecimal
          ((s : ℚ) * (488 / 100) / 10 - if s ∈ binary32Exceptions then 1 / 10 else 0)) :=
    List.map_congr_left fun s hmem => by rw [(tempText_binary32 s (hs s hmem)).1]
  refine ⟨⟨ste, ?_, ?_⟩, ⟨stb, ?_, ?_⟩, ?_⟩
  · simp only [main.run, h0, Option.some_bind]
    exact he
  · rw [hwe, hw0, hme]
  · simp only [main.run, h0, Option.some_bind]
    exact hb
  · rw [hwb, hw0, hmb]
  · intro s hmem
    constructor
    · rw [← (tempText_exact s (hs s hmem)).1]
      exact isRecord_tempText exactArith s (hfe s hmem)
    · rw [← (tempText_binary32 s (hs s hmem)).1]
      exact isRecord_tempText binary32 s (hfb s hmem)

/-- Three passes, for the samples 25, 0 and 205, from registers all zero. -/
theorem main_sends_banner_then_records_witness :
    (∃ st, main.run exactArith ⟨0, 0, 0, 0, 0, 0, 0⟩ ([25, 0, 205].map registersOf) = some st ∧
      st.wire = bytesOf "UART Test Start\r\n" ++
        ([25, 0, 205].map fun s =>
          recordWith s (oneDecimal ((s : ℚ) * (488 / 100) / 10))).flatten) ∧
    (∃ st, main.run binary32 ⟨0, 0, 0, 0, 0, 0, 0⟩ ([25, 0, 205].map registersOf) = some st ∧
      st.wire = bytesOf "UART Test Start\r\n" ++
        ([25, 0, 205].map fun s => recordWith s (oneDecimal
          ((s : ℚ) * (488 / 100) / 10 - if s ∈ binary32Exceptions then 1 / 10 else 0))).flatten) ∧
    (∀ s ∈ [25, 0, 205],
      IsRecord s (recordWith s (oneDecimal ((s : ℚ) * (488 / 100) / 10))) ∧
      IsRecord s (recordWith s (oneDecimal
        ((s : ℚ) * (488 / 100) / 10 - if s ∈ binary32Exceptions then 1 / 10 else 0)))) :=
  main_sends_banner_then_records ⟨0, 0, 0, 0, 0, 0, 0⟩ [25, 0, 205] (by decide)

/-- C10, as stated, fails: the formula does not give 9600 for the divisor that
`UART_Init` writes. -/
theorem baudRate_not_9600 :
    baudRate _XTAL_FREQ (UART_Init ⟨0, 0, 0, 0, 0, 0, 0⟩).SPBRG ≠ 9600 := by
  decide!

/-- C10, amended: `UART_Init` writes the divisor 25 to `SPBRG` whatever the
registers held, and with the oscillator frequency 4,000,000 Hz the formula
`oscillatorFreq / (16 * (divisor + 1))` gives 4000000 / 416 = 125000 / 13,
about 9615.38 bits per second (9615 when the division is the integer one),
which is within 0.17 % of 9600; the formula gives exactly 9600 for no divisor,
and no divisor comes closer to 9600 than 25. -/
theorem baudRate_of_UART_Init (r : Regs) :
    (UART_Init r).SPBRG = 25 ∧
      baudRate _XTAL_FREQ (UART_Init r).SPBRG = 125000 / 13 ∧
      _XTAL_FREQ / (16 * ((UART_Init r).SPBRG + 1)) = 9615 ∧
      |baudRate _XTAL_FREQ (UART_Init r).SPBRG - 9600| < 9600 * (17 / 10000) ∧
      (∀ divisor : Nat, baudRate _XTAL_FREQ divisor ≠ 9600) ∧
      (∀ divisor : Nat, |baudRate _XTAL_FREQ (UART_Init r).SPBRG - 9600|
          ≤ |baudRate _XTAL_FREQ divisor - 9600|) := by
  have hb : ∀ d : Nat, baudRate _XTAL_FREQ d = 250000 / ((d : ℚ) + 1) := by
    intro d
    have hd : (0 : ℚ) < (d : ℚ) + 1 := by positivity
    simp only [baudRate, _XTAL_FREQ]
    rw [div_eq_div_iff (by positivity) (by positivity)]
    push_cast
    ring
  have h25 : baudRate _XTAL_FREQ (UART_Init r).SPBRG = 125000 / 13 := by
    show baudRate _XTAL_FREQ 25 = 125000 / 13
    rw [hb]; norm_num
  have hne : ∀ d : Nat, baudRate _XTAL_FREQ d ≠ 9600 := by
    intro d h
    rw [hb, div_eq_iff (by positivity)] at h
    have h2 : (250000 : ℚ) = ((9600 * (d + 1) : Nat) : ℚ) := by push_cast; linarith
    have h3 : 250000 = 9600 * (d + 1) := by exact_mod_cast h2
    omega
  refine ⟨rfl, h25, by show 4000000 / (16 * (25 + 1)) = 9615; norm_num, ?_, hne, ?_⟩
  · rw [h25]; norm_num [abs_lt]
  · intro d
    rw [h25, hb]
    have hd : (0 : ℚ) < (d : ℚ) + 1 := by positivity
    have e1 : |(125000 / 13 : ℚ) - 9600| = 200 / 13 := by norm_num [abs_of_nonneg]
    rw [e1]
    rcases Nat.lt_or_ge d 25 with hlt | hge
    · have hdq : (d : ℚ) + 1 ≤ 25 := by exact_mod_cast hlt
      have : (10000 : ℚ) ≤ 250000 / ((d : ℚ) + 1) := by
        rw [le_div_iff₀ hd]; linarith
      rw [abs_of_nonneg (by linarith)]
      linarith
    · rcases Nat.eq_or_lt_of_le hge with heq | hgt
      · subst heq
        norm_num [abs_of_nonneg]
      · have hdq : (27 : ℚ) ≤ (d : ℚ) + 1 := by exact_mod_cast Nat.succ_le_succ hgt
        have : 250000 / ((d : ℚ) + 1) ≤ 9260 := by
          rw [div_le_iff₀ hd]; linarith
        rw [abs_of_nonpos (by linarith)]
        linarith

end UartAdc
